import Mathlib

/-!
# appimagetool: dependency closure and relocation (`appdirtool.go`)

A shallow embedding of the closure engine of `src/appimagetool/appdirtool.go`:
the process-wide lists `allELFs` and `libraryLocations`, the resolver
`findLibrary`, `appendLib`, the recursion `getDeps`, `determineELFsInDirTree`,
the relocation string of `patchRpathsInElf` and the byte substitution of
`PatchFile`.

Go strings that hold paths and names are Lean strings; the byte-level library
functions used on them (`strings.Split`, `strings.HasPrefix`, `filepath.Clean`,
...) act on the characters, which is what they do on valid UTF-8 text.  File
contents are lists of bytes.  The host (filesystem, environment, the external
`patchelf`) is a parameter of type `Host`.
-/

namespace AppDirTool

/-! ## Go library functions -/

/-- The Go pair `(string, error)`. -/
inductive StrResult where
  | ok (value : String)
  | err (message : String)
deriving DecidableEq, Repr

/-- Go `strings.Split(s, sep)` for a one-character separator, on a list of characters:
the pieces between separators, `[""]` for the empty string. -/
def splitChars (sep : Char) : List Char → List (List Char)
  | [] => [[]]
  | c :: cs =>
    if c = sep then [] :: splitChars sep cs
    else
      match splitChars sep cs with
      | [] => [[c]]
      | w :: ws => (c :: w) :: ws

/-- Go `strings.Join(elems, sep)` on lists of characters. -/
def joinChars (sep : List Char) : List (List Char) → List Char
  | [] => []
  | [w] => w
  | w :: v :: ws => w ++ sep ++ joinChars sep (v :: ws)

/-- Go `strings.Split(s, sep)` with a one-character `sep`. -/
def Split (s : String) (sep : Char) : List String :=
  (splitChars sep s.data).map String.mk

/-- Go `strings.Join(elems, sep)`. -/
def Join (elems : List String) (sep : String) : String :=
  String.mk (joinChars sep.data (elems.map String.data))

/-- Go `strings.HasPrefix(s, p)`. -/
def HasPrefix (s p : String) : Bool :=
  p.data.isPrefixOf s.data

/-- The replacement loop shared by `strings.Replace` and `bytes.Replace` with `n = -1`
and a non-empty `old`: scanning from the left, each occurrence of `old` found at the
current position is replaced by `new` and skipped, any other element is copied.
The first argument bounds the number of steps; the length of the input is enough. -/
def replaceLoop {α : Type} [DecidableEq α] (old new : List α) : Nat → List α → List α
  | 0, s => s
  | _ + 1, [] => []
  | fuel + 1, c :: cs =>
    if old.isPrefixOf (c :: cs) then
      new ++ replaceLoop old new fuel ((c :: cs).drop old.length)
    else
      c :: replaceLoop old new fuel cs

/-- Go `strings.Replace(s, old, new, -1)`.  For an empty `old` Go inserts `new` before
every character and at the end. -/
def ReplaceAll (s old new : String) : String :=
  if old.data = [] then
    String.mk (new.data ++ (s.data.map (fun c => c :: new.data)).flatten)
  else
    String.mk (replaceLoop old.data new.data s.data.length s.data)

/-- One step of the component scan of `filepath.Clean`: `out` holds the components kept
so far, last one first.  Empty components and `.` are dropped; `..` removes the last
kept component when there is one that is not itself `..`, is dropped at the root of a
rooted path, and is kept otherwise; any other component is kept. -/
def cleanStep (rooted : Bool) (out : List (List Char)) (c : List Char) : List (List Char) :=
  if c = [] ∨ c = ['.'] then out
  else if c = ['.', '.'] then
    match out with
    | [] => if rooted then [] else [c]
    | top :: rest => if top = ['.', '.'] then c :: out else rest
  else c :: out

/-- The components `filepath.Clean` keeps, in order. -/
def cleanComponents (rooted : Bool) (p : List Char) : List (List Char) :=
  ((splitChars '/' p).foldl (cleanStep rooted) []).reverse

/-- Go `filepath.Clean` (Unix) on a list of characters: `.` for the empty path; a rooted
path keeps its leading `/`; a path with no component left is `.`. -/
def cleanChars (p : List Char) : List Char :=
  match p with
  | [] => ['.']
  | c :: _ =>
    if c = '/' then '/' :: joinChars ['/'] (cleanComponents true p)
    else if cleanComponents false p = [] then ['.']
    else joinChars ['/'] (cleanComponents false p)

/-- Go `filepath.Clean`. -/
def Clean (p : String) : String :=
  String.mk (cleanChars p.data)

/-- The part of a path up to and including its last `/` (empty when it has none):
`path[:i+1]` in `filepath.Dir`. -/
def uptoLastSlash (p : List Char) : List Char :=
  (p.reverse.dropWhile (fun c => c ≠ '/')).reverse

/-- Go `filepath.Dir` (Unix): everything up to the last `/`, cleaned. -/
def Dir (p : String) : String :=
  String.mk (cleanChars (uptoLastSlash p.data))

/-- Go `filepath.Base` (Unix): the last element of the path, after trailing slashes are
removed; `.` for the empty path and `/` for a path of slashes only. -/
def Base (p : String) : String :=
  if p.data = [] then "."
  else
    let stripped := (p.data.reverse.dropWhile (fun c => c = '/')).reverse
    let last := (stripped.reverse.takeWhile (fun c => c ≠ '/')).reverse
    if last = [] then "/" else String.mk last

/-- Go `unicode.IsSpace`: the characters `strings.TrimSpace` removes. -/
def isSpace (c : Char) : Bool :=
  let n := c.toNat
  (9 ≤ n ∧ n ≤ 13) ∨ n = 32 ∨ n = 133 ∨ n = 160 ∨ n = 5760 ∨ (8192 ≤ n ∧ n ≤ 8202)
    ∨ n = 8232 ∨ n = 8233 ∨ n = 8239 ∨ n = 8287 ∨ n = 12288

/-- Go `strings.TrimSpace`. -/
def TrimSpace (s : String) : String :=
  String.mk ((s.data.dropWhile isSpace).reverse.dropWhile isSpace).reverse

/-- The elements the comparison loop of `filepath.Rel` walks through: the pieces between
separators, where a final separator (or the empty string) does not start an element. -/
def relElements (p : List Char) : List (List Char) :=
  if (splitChars '/' p).getLast? = some [] then (splitChars '/' p).dropLast
  else splitChars '/' p

/-- The loop of `filepath.Rel` that positions both paths at their first differing
elements: what is left of each after the elements they share. -/
def dropCommon : List (List Char) → List (List Char) → List (List Char) × List (List Char)
  | b :: bs, t :: ts => if t = b then dropCommon bs ts else (b :: bs, t :: ts)
  | bs, ts => (bs, ts)

/-- Go `filepath.Rel` (Unix) on lists of characters, `none` for its error.  Both paths are
cleaned; equal paths give `.`; a base `.` counts as empty; a rooted and an unrooted path
cannot be related, nor can a base whose first element after the shared ones is `..`
(also when nothing is left of the target, as for the base `../..` and the target `..`);
otherwise one `..` for every element left of the base, then what is left of the
target. -/
def relChars (basepath targpath : List Char) : Option (List Char) :=
  let base := cleanChars basepath
  let targ := cleanChars targpath
  if targ = base then some ['.']
  else
    let base := if base = ['.'] then [] else base
    if (base.head? = some '/') ≠ (targ.head? = some '/') then none
    else
      let rest := dropCommon (relElements base) (relElements targ)
      if rest.1.head? = some ['.', '.'] then none
      else some (joinChars ['/'] (rest.1.map (fun _ => ['.', '.']) ++ rest.2))

/-- Go `filepath.Rel`. -/
def Rel (basepath targpath : String) : StrResult :=
  match relChars basepath.data targpath.data with
  | some r => StrResult.ok (String.mk r)
  | none => StrResult.err ("Rel: can't make " ++ targpath ++ " relative to " ++ basepath)

/-! ## Helpers of the repository (`internal/helpers`) -/

/-- Modelled from the spec: `helpers.SliceContains`, of the package `internal/helpers`
whose source is not under `src/`, is the membership test on a list of strings that the
spec calls "the membership test on `E`". -/
def SliceContains (slice : List String) (s : String) : Bool :=
  slice.contains s

/-- Modelled from the spec: `helpers.AppendIfMissing`, of the package `internal/helpers`
whose source is not under `src/`, keeps `E` and `L` "ordered-insertion, deduplicated":
the string is appended at the end unless the list already holds it. -/
def AppendIfMissing (slice : List String) (s : String) : List String :=
  if slice.contains s then slice else slice ++ [s]

/-! ## Host and program state -/

/-- What one step of `filepath.Walk` hands to the callback of
`findAllExecutablesAndLibraries`: the path and whether it is a regular file. -/
structure WalkEntry where
  path : String
  regular : Bool
deriving DecidableEq, Repr

/-- The host as the closure engine sees it. -/
structure Host where
  /-- Result of `helpers.Exists(path)`. -/
  pathExists : String → Bool
  /-- Result of `helpers.IsDirectory(path)`. -/
  isDirectory : String → Bool
  /-- The entries `filepath.Walk(root, ...)` visits without error, in order. -/
  walk : String → List WalkEntry
  /-- The file can be opened and `helpers.CheckMagicAtOffset(f, "454c46", 1)` holds. -/
  elfMagic : String → Bool
  /-- Go `elf.Open(path)` followed by `ImportedLibraries()`: `none` when `elf.Open` fails
  (the nil `*elf.File` is then dereferenced and the process panics). -/
  importedLibraries : String → Option (List String)
  /-- Combined output of `patchelf --print-rpath path`; `none` when the command fails. -/
  printRpath : String → Option String
  /-- The environment variable `LD_LIBRARY_PATH` (empty when unset). -/
  ldLibraryPath : String
  /-- The bytes of the file `os.Open(path)` gives access to; `none` when it cannot be
  opened. -/
  fileContent : String → Option (List UInt8) := fun _ => none

/-- The process-wide variables `allELFs` and `libraryLocations`. -/
structure State where
  allELFs : List String
  libraryLocations : List String
deriving DecidableEq, Repr

/-! ## `findLibrary` -/

/-- The fixed directories of `findLibrary` (`locs`). -/
def locs : List String :=
  ["/usr/lib64", "/lib64", "/usr/lib", "/lib",
   "/usr/lib/x86_64-linux-gnu/libfakeroot",
   "/usr/local/lib",
   "/usr/local/lib/x86_64-linux-gnu",
   "/lib/x86_64-linux-gnu",
   "/usr/lib/x86_64-linux-gnu",
   "/lib32",
   "/usr/lib32"]

/-- The first loop of `findLibrary`: every fixed directory, cleaned, is appended if missing. -/
def seedLocs (l : List String) : List String :=
  locs.foldl (fun acc loc => AppendIfMissing acc (Clean loc)) l

/-- The second loop of `findLibrary`: every non-empty component of `LD_LIBRARY_PATH`,
cleaned, is appended if missing. -/
def seedLdLibraryPath (ldpstr : String) (l : List String) : List String :=
  (Split ldpstr ':').foldl
    (fun acc ldp => if ldp ≠ "" then AppendIfMissing acc (Clean ldp) else acc) l

/-- The search loop of `findLibrary` over `libraryLocations`. -/
def searchLocations (h : Host) (filename : String) : List String → StrResult
  | [] => StrResult.err ("did not find library " ++ filename)
  | libraryLocation :: rest =>
    if h.pathExists (libraryLocation ++ "/" ++ filename) then
      StrResult.ok (libraryLocation ++ "/" ++ filename)
    else searchLocations h filename rest

/-- Function `findLibrary(filename)`: the state after the call and the returned pair. -/
def findLibrary (h : Host) (s : State) (filename : String) : State × StrResult :=
  let l := seedLdLibraryPath h.ldLibraryPath (seedLocs s.libraryLocations)
  ({ s with libraryLocations := l }, searchLocations h filename l)

/-! ## `appendLib`, `getDeps`, `determineELFsInDirTree` -/

/-- Function `readRpaths(path)`: the output of `patchelf --print-rpath`, trimmed and split on `:`
(no entry for an empty output); `none` when the command returned an error. -/
def readRpaths (h : Host) (path : String) : Option (List String) :=
  match h.printRpath path with
  | none => none
  | some out =>
    let rpathStringInELF := TrimSpace out
    if rpathStringInELF = "" then some [] else some (Split rpathStringInELF ':')

/-- The loop of `appendLib` over the pre-existing rpaths: `$ORIGIN` is replaced by the
directory of the object, the result is cleaned and appended to `libraryLocations`
unless it is there already. -/
def addRpaths (path : String) (rpaths : List String) (l : List String) : List String :=
  rpaths.foldl
    (fun acc rpath =>
      let rpath := Clean (ReplaceAll rpath "$ORIGIN" (Dir path))
      if SliceContains acc rpath == false && rpath ≠ "" then
        AppendIfMissing acc (Clean rpath)
      else acc)
    l

/-- Function `appendLib(path)`: `none` when `readRpaths` fails and the process exits. -/
def appendLib (h : Host) (s : State) (path : String) : Option State :=
  match readRpaths h path with
  | none => none
  | some rpaths =>
    some
      { allELFs := AppendIfMissing s.allELFs path
        libraryLocations :=
          AppendIfMissing (addRpaths path rpaths s.libraryLocations) (Clean (Dir path)) }

/-- How a call of `getDeps` or `determineELFsInDirTree` ends: it returns (for `getDeps`
with `nil` or with an error) in some state, or the process stops (`os.Exit(1)` or a
panic), or the step bound of the embedding is used up. -/
inductive Outcome where
  | returned (err : Option String) (s : State)
  | exited
  | outOfFuel
deriving DecidableEq, Repr

/-- The loop `for _, lib := range libs` of `getDeps`; `recur` is the recursive call.
An error of the first `findLibrary` is returned.  A library whose resolved path is in
`allELFs` is skipped.  Otherwise the path is appended and `getDeps` is called on it; the
error that call returns is printed (`helpers.PrintError`) and nothing else. -/
def depsLoop (h : Host) (recur : State → String → Outcome) :
    State → List String → Outcome
  | s, [] => Outcome.returned none s
  | s, lib :: rest =>
    match findLibrary h s lib with
    | (s1, StrResult.err e) => Outcome.returned (some e) s1
    | (s1, StrResult.ok p) =>
      if SliceContains s1.allELFs p = true then depsLoop h recur s1 rest
      else
        let r2 := findLibrary h s1 lib
        let libPath := match r2.2 with
          | StrResult.ok q => q
          | StrResult.err _ => ""
        match appendLib h r2.1 libPath with
        | none => Outcome.exited
        | some s3 =>
          match recur s3 libPath with
          | Outcome.returned _ s4 => depsLoop h recur s4 rest
          | Outcome.exited => Outcome.exited
          | Outcome.outOfFuel => Outcome.outOfFuel

/-- Function `getDeps(binaryOrLib)`; the first argument bounds the depth of the recursion. -/
def getDeps (h : Host) : Nat → State → String → Outcome
  | 0, _, _ => Outcome.outOfFuel
  | fuel + 1, s, binaryOrLib =>
    if h.pathExists binaryOrLib = false then
      Outcome.returned (some ("binary does not exist: " ++ binaryOrLib)) s
    else
      match h.importedLibraries binaryOrLib with
      | none => Outcome.exited
      | some libs => depsLoop h (getDeps h fuel) s libs

/-- Function `findAllExecutablesAndLibraries(path)`: the path itself when it is not a directory,
otherwise the regular files of the walk that pass the magic test, each once. -/
def findAllExecutablesAndLibraries (h : Host) (path : String) : List String :=
  if h.isDirectory path != true then [path]
  else
    (h.walk path).foldl
      (fun acc e => if e.regular && h.elfMagic e.path then AppendIfMissing acc e.path else acc)
      []

/-- The first loop of `determineELFsInDirTree`: `appendLib` on every object found. -/
def appendLibs (h : Host) : State → List String → Option State
  | s, [] => some s
  | s, lib :: rest =>
    match appendLib h s lib with
    | none => none
    | some s1 => appendLibs h s1 rest

/-- The second loop of `determineELFsInDirTree`: `getDeps` on every object found; an
error it returns ends the process. -/
def getDepsAll (h : Host) (fuel : Nat) : State → List String → Outcome
  | s, [] => Outcome.returned none s
  | s, elfpath :: rest =>
    match getDeps h fuel s elfpath with
    | Outcome.returned none s1 => getDepsAll h fuel s1 rest
    | Outcome.returned (some _) _ => Outcome.exited
    | Outcome.exited => Outcome.exited
    | Outcome.outOfFuel => Outcome.outOfFuel

/-- Function `determineELFsInDirTree(appdir, pathToDirTreeToBeDeployed)`. -/
def determineELFsInDirTree (h : Host) (fuel : Nat) (s : State) (root : String) : Outcome :=
  let allelfs := findAllExecutablesAndLibraries h root
  match appendLibs h s allelfs with
  | none => Outcome.exited
  | some s1 => getDepsAll h fuel s1 allelfs

/-! ## Relocation: `libraryLocationsInAppDir` and `patchRpathsInElf` -/

/-- The field `Path` of `helpers.AppDir`. -/
structure AppDir where
  Path : String
deriving DecidableEq, Repr

/-- The directory a library location stands for inside the AppDir (`AppDirDeploy`,
lines 370-372): the AppDir path is put in front unless the location begins with it. -/
def mirroredDir (appdir : AppDir) (lib : String) : String :=
  if HasPrefix lib appdir.Path = false then appdir.Path ++ lib else lib

/-- The list `libraryLocationsInAppDir` built by `AppDirDeploy` (lines 368-374). -/
def libraryLocationsInAppDir (appdir : AppDir) (libraryLocations : List String) :
    List String :=
  libraryLocations.foldl (fun acc lib => AppendIfMissing acc (mirroredDir appdir lib)) []

/-- The path `patchRpathsInElf` works on (lines 450-452): the object itself when its
path begins with the AppDir path, otherwise its copy under the AppDir. -/
def pathInAppDir (appdir : AppDir) (path : String) : String :=
  if HasPrefix path appdir.Path = false then Clean (appdir.Path ++ "/" ++ path) else path

/-- The list `newRpathStrings` of `patchRpathsInElf`: for every location the token
`$ORIGIN/` followed by the cleaned relative path from the directory of the object; the
relative path is empty when `filepath.Rel` fails (the error is only printed). -/
def newRpathStrings (appdir : AppDir) (libraryLocationsInAppDir : List String)
    (path : String) : List String :=
  libraryLocationsInAppDir.map (fun libloc =>
    let relpath :=
      match Rel (Dir (pathInAppDir appdir path)) libloc with
      | StrResult.ok r => r
      | StrResult.err _ => ""
    "$ORIGIN/" ++ Clean relpath)

/-- The string `newRpathStringForElf` of `patchRpathsInElf`. -/
def newRpathStringForElf (appdir : AppDir) (libraryLocationsInAppDir : List String)
    (path : String) : String :=
  Join (newRpathStrings appdir libraryLocationsInAppDir path) ":"

/-- Function `patchRpathsInElf`: the call `patchelf --set-rpath <rpath> <file>` it makes, if any.
Nothing is written for a file whose base name begins with `ld-linux`, nor for a file
that does not exist. -/
def patchRpathsInElf (h : Host) (appdir : AppDir) (libraryLocationsInAppDir : List String)
    (path : String) : Option (String × String) :=
  if HasPrefix (Base (pathInAppDir appdir path)) "ld-linux" = true then none
  else if h.pathExists (pathInAppDir appdir path) = true then
    some (newRpathStringForElf appdir libraryLocationsInAppDir path, pathInAppDir appdir path)
  else none

/-! ## `PatchFile` -/

/-- Conversion `[]byte(s)`: the UTF-8 bytes of a string. -/
def goBytes (s : String) : List UInt8 :=
  s.toUTF8.data.toList

/-- Go `bytes.Replace(s, old, new, -1)` for a non-empty `old`.  For an empty `old` Go
inserts `new` around every UTF-8 sequence of `s`; no call of this program passes an
empty search, and the embedding gives `none` there. -/
def bytesReplaceAll (s old new : List UInt8) : Option (List UInt8) :=
  if old = [] then none else some (replaceLoop old new s.length s)

/-- Function `PatchFile(path, search, replace)` on the content: for the bytes `input` read from
`path`, the bytes `output` that are written to `path + ".patched"` and renamed over
`path`. -/
def PatchFile (input : List UInt8) (search replace : String) : Option (List UInt8) :=
  bytesReplaceAll input (goBytes search) (goBytes replace)

/-- The loop of `AppDirDeploy` over the `.ui` files found (lines 321-328): for every
file, whichever it is, `PatchFile(appdir.MainExecutable, "/usr", "././")` is run on the
current content of the main executable. -/
def patchUiFiles : List String → List UInt8 → Option (List UInt8)
  | [], content => some content
  | _ :: rest, content =>
    match PatchFile content "/usr" "././" with
    | none => none
    | some output => patchUiFiles rest output

/-! ## `ScanFile` and `getQtPrfxpath` -/

/-- An open file: its bytes and the position of the next read. -/
structure File where
  content : List UInt8
  pos : Nat
deriving DecidableEq, Repr

/-- Go `f.Seek(offset, 0)`: the position becomes `offset`; a negative offset is an error
and leaves the position where it was. -/
def File.seek (f : File) (offset : Int) : File :=
  if offset < 0 then f else { f with pos := offset.toNat }

/-- The loop of `ScanFile` on the bytes still to be read: `ix` bytes of `search` are
matched, `offset` bytes have been read.  A byte equal to `search[ix]` advances `ix`, any
other byte sets `ix` to zero; the end of the data gives `-1`. -/
def scanLoop (search : List UInt8) : Nat → Nat → List UInt8 → Int
  | ix, offset, [] =>
    if ix < search.length then -1 else (offset : Int) - (search.length : Int)
  | ix, offset, b :: rest =>
    if ix < search.length then
      scanLoop search (if search[ix]? = some b then ix + 1 else 0) (offset + 1) rest
    else (offset : Int) - (search.length : Int)

/-- Function `ScanFile(f, search)`: the value returned and the file afterwards.  The bytes
are read from the current position; after a match the file is positioned with
`f.Seek(offset-len(search), 0)`, otherwise it has been read to its end. -/
def ScanFile (f : File) (search : List UInt8) : Int × File :=
  let r := scanLoop search 0 0 (f.content.drop f.pos)
  if r = -1 then (-1, { f with pos := max f.pos f.content.length })
  else (r, f.seek r)

/-- Go `utf8.DecodeRune`: the first character of a byte sequence and the number of bytes
it takes; a byte that does not start a valid sequence is read as U+FFFD of width 1. -/
def decodeRune : List UInt8 → Char × Nat
  | [] => (Char.ofNat 0xFFFD, 0)
  | b0 :: rest =>
    let n0 := b0.toNat
    if n0 < 0x80 then (Char.ofNat n0, 1)
    else if 0xC2 ≤ n0 ∧ n0 ≤ 0xDF then
      match rest with
      | b1 :: _ =>
        if 0x80 ≤ b1.toNat ∧ b1.toNat ≤ 0xBF then
          (Char.ofNat (n0 % 32 * 64 + b1.toNat % 64), 2)
        else (Char.ofNat 0xFFFD, 1)
      | [] => (Char.ofNat 0xFFFD, 1)
    else if 0xE0 ≤ n0 ∧ n0 ≤ 0xEF then
      match rest with
      | b1 :: b2 :: _ =>
        if (if n0 = 0xE0 then 0xA0 else 0x80) ≤ b1.toNat ∧
            b1.toNat ≤ (if n0 = 0xED then 0x9F else 0xBF) ∧
            0x80 ≤ b2.toNat ∧ b2.toNat ≤ 0xBF then
          (Char.ofNat (n0 % 16 * 4096 + b1.toNat % 64 * 64 + b2.toNat % 64), 3)
        else (Char.ofNat 0xFFFD, 1)
      | _ => (Char.ofNat 0xFFFD, 1)
    else if 0xF0 ≤ n0 ∧ n0 ≤ 0xF4 then
      match rest with
      | b1 :: b2 :: b3 :: _ =>
        if (if n0 = 0xF0 then 0x90 else 0x80) ≤ b1.toNat ∧
            b1.toNat ≤ (if n0 = 0xF4 then 0x8F else 0xBF) ∧
            0x80 ≤ b2.toNat ∧ b2.toNat ≤ 0xBF ∧ 0x80 ≤ b3.toNat ∧ b3.toNat ≤ 0xBF then
          (Char.ofNat (n0 % 8 * 262144 + b1.toNat % 64 * 4096 + b2.toNat % 64 * 64
            + b3.toNat % 64), 4)
        else (Char.ofNat 0xFFFD, 1)
      | _ => (Char.ofNat 0xFFFD, 1)
    else (Char.ofNat 0xFFFD, 1)

/-- The characters of a byte sequence, one `decodeRune` after the other; the first
argument bounds the number of steps. -/
def decodeLoop : Nat → List UInt8 → List Char
  | 0, _ => []
  | _ + 1, [] => []
  | fuel + 1, b :: rest =>
    (decodeRune (b :: rest)).1 :: decodeLoop fuel ((b :: rest).drop (decodeRune (b :: rest)).2)

/-- Conversion `string(buf)`: the bytes read as UTF-8 text, the way `strings.TrimSpace`
reads them.  A Go string keeps bytes that are not valid UTF-8 as they are; here such a
byte shows as U+FFFD, so the two agree on valid UTF-8 only. -/
def goString (buf : List UInt8) : String :=
  String.mk (decodeLoop buf.length buf)

/-- Function `getQtPrfxpath(f, err)`: `none` when the process stops in it (`make` panics
on the negative length that `ScanFile` returns when there is no NUL byte, `os.Exit(1)`
when `io.ReadFull` fails), otherwise the string returned. -/
def getQtPrfxpath (f : File) : Option String :=
  let f0 := f.seek 0
  let search := goBytes "qt_prfxpath="
  let r1 := ScanFile f0 search
  let offset := r1.1 + (search.length : Int)
  let f1 := r1.2.seek offset
  let r2 := ScanFile f1 [0]
  let length := r2.1
  let f2 := r2.2.seek offset
  if length < 0 then none
  else
    let buf := (f2.content.drop f2.pos).take length.toNat
    if buf.length < length.toNat then none
    else some (TrimSpace (goString buf))

/-! ## The Qt step of `AppDirDeploy` and `handleQt` -/

/-- Function `handleQt(appdir, qtVersion)`.  For a version of 5 or more: `libQt5Core.so.5`
is resolved and opened, `qt_prfxpath` is read from it, and `determineELFsInDirTree` runs
over `<prfx>/plugins/platforms/libqxcb.so`; each failure stops the process.  For any
other version nothing is done. -/
def handleQt (h : Host) (fuel : Nat) (s : State) (qtVersion : Nat) : Outcome :=
  if qtVersion ≥ 5 then
    match findLibrary h s "libQt5Core.so.5" with
    | (_, StrResult.err _) => Outcome.exited
    | (s1, StrResult.ok library) =>
      match h.fileContent library with
      | none => Outcome.exited
      | some content =>
        match getQtPrfxpath ⟨content, 0⟩ with
        | none => Outcome.exited
        | some qtPrfxpath =>
          if qtPrfxpath = "" then Outcome.exited
          else if h.pathExists (qtPrfxpath ++ "/plugins/platforms/libqxcb.so") = false then
            Outcome.exited
          else
            determineELFsInDirTree h fuel s1 (qtPrfxpath ++ "/plugins/platforms/libqxcb.so")
  else Outcome.returned none s

/-- The variable `qtVersionDetected` of `AppDirDeploy` (lines 342-353).  `containsString`
is not defined in `appdirtool.go` and is a parameter. -/
def qtVersionDetected (containsString : List String → String → Bool)
    (allELFs : List String) : Nat :=
  let v0 := 0
  let v1 := if containsString allELFs "libQt5Core.so.5" = true then 5 else v0
  let v2 := if containsString allELFs "libQtCore.so.4" = true then 4 else v1
  v2

/-- The Qt step of `AppDirDeploy` (lines 342-357): `handleQt` is called with the
detected version when it is positive. -/
def deployQt (h : Host) (containsString : List String → String → Bool) (fuel : Nat)
    (s : State) : Outcome :=
  if qtVersionDetected containsString s.allELFs > 0 then
    handleQt h fuel s (qtVersionDetected containsString s.allELFs)
  else Outcome.returned none s

/-- Modelled from the spec: `containsString` is not defined in `appdirtool.go`; the
spec detects a Qt version "via presence of `libQt5Core.so.5` or `libQtCore.so.4` in `E`",
markers being prefixes of base names: some entry of the list has a base name that begins
with the marker. -/
def markerPresent (allELFs : List String) (marker : String) : Bool :=
  allELFs.any (fun lib => HasPrefix (Base lib) marker)

/-! ## Sequences of `appendLib` and `findLibrary` calls -/

/-- A call that changes `libraryLocations`. -/
inductive Call where
  | appendLib (path : String)
  | findLibrary (filename : String)
deriving DecidableEq, Repr

/-- The state after a sequence of calls; `none` when an `appendLib` stops the process. -/
def runCalls (h : Host) : State → List Call → Option State
  | s, [] => some s
  | s, Call.appendLib path :: rest =>
    match appendLib h s path with
    | none => none
    | some s1 => runCalls h s1 rest
  | s, Call.findLibrary filename :: rest => runCalls h (findLibrary h s filename).1 rest

/-! ## Example hosts -/

/-- A host whose AppDir `/app` holds one executable `/app/tool`; it imports `liba.so`,
found in `/usr/lib`, and `liba.so` imports `libmissing.so`, which is nowhere. -/
def hostDeepMissing : Host where
  pathExists p := decide (p ∈ ["/app", "/app/tool", "/usr/lib/liba.so"])
  isDirectory p := decide (p = "/app")
  walk root := if root = "/app" then [⟨"/app", false⟩, ⟨"/app/tool", true⟩] else []
  elfMagic p := decide (p ∈ ["/app/tool", "/usr/lib/liba.so"])
  importedLibraries p :=
    if p = "/app/tool" then some ["liba.so"]
    else if p = "/usr/lib/liba.so" then some ["libmissing.so"]
    else none
  printRpath _ := some ""
  ldLibraryPath := ""

/-- A host with a dependency cycle: `/app/tool` imports `liba.so`, `liba.so` imports
`libb.so` and itself, `libb.so` imports `liba.so`; both libraries are in `/opt/lib`,
which `/app/tool` names in its rpath. -/
def hostCycle : Host where
  pathExists p := decide (p ∈ ["/app", "/app/tool", "/opt/lib/liba.so", "/opt/lib/libb.so"])
  isDirectory p := decide (p = "/app")
  walk root := if root = "/app" then [⟨"/app", false⟩, ⟨"/app/tool", true⟩] else []
  elfMagic p := decide (p ∈ ["/app/tool", "/opt/lib/liba.so", "/opt/lib/libb.so"])
  importedLibraries p :=
    if p = "/app/tool" then some ["liba.so"]
    else if p = "/opt/lib/liba.so" then some ["libb.so", "liba.so"]
    else if p = "/opt/lib/libb.so" then some ["liba.so"]
    else none
  printRpath p := if p = "/app/tool" then some "/opt/lib" else some ""
  ldLibraryPath := ""

/-- A host with one file that is not a binary object, `/etc/hostname`, and nothing at
`/nowhere`; `patchelf` fails on both. -/
def hostPlainFile : Host where
  pathExists p := decide (p = "/etc/hostname")
  isDirectory _ := false
  walk _ := []
  elfMagic _ := false
  importedLibraries _ := none
  printRpath _ := none
  ldLibraryPath := ""

/-- A host on which `LD_LIBRARY_PATH` is `lib` and the object `/app/tool` has the
embedded search path `plugins`. -/
def hostRelativeDirs : Host where
  pathExists p := decide (p = "/app/tool")
  isDirectory _ := false
  walk _ := []
  elfMagic p := decide (p = "/app/tool")
  importedLibraries p := if p = "/app/tool" then some [] else none
  printRpath p := if p = "/app/tool" then some "plugins" else none
  ldLibraryPath := "lib"

/-- A host with Qt 5 and Qt 4: `/usr/lib/libQt5Core.so.5` holds the marker
`qt_prfxpath=/opt/qt5` between two NUL bytes, and the platform plugin
`/opt/qt5/plugins/platforms/libqxcb.so` exists and imports nothing. -/
def hostQt : Host where
  pathExists p :=
    decide (p ∈ ["/usr/lib/libQt5Core.so.5", "/usr/lib/libQtCore.so.4",
      "/opt/qt5/plugins/platforms/libqxcb.so"])
  isDirectory _ := false
  walk _ := []
  elfMagic p :=
    decide (p ∈ ["/usr/lib/libQt5Core.so.5", "/usr/lib/libQtCore.so.4",
      "/opt/qt5/plugins/platforms/libqxcb.so"])
  importedLibraries _ := some []
  printRpath _ := some ""
  ldLibraryPath := ""
  fileContent p :=
    if p = "/usr/lib/libQt5Core.so.5" then some ([0] ++ goBytes "qt_prfxpath=/opt/qt5" ++ [0])
    else none

/-- A host on which `LD_LIBRARY_PATH` is `/opt/extra::/srv/lib` and the object
`/app/bin/tool` has the embedded search path `$ORIGIN/../lib:/opt/lib`. -/
def hostOrigin : Host where
  pathExists p := decide (p = "/app/bin/tool")
  isDirectory _ := false
  walk _ := []
  elfMagic p := decide (p = "/app/bin/tool")
  importedLibraries p := if p = "/app/bin/tool" then some [] else none
  printRpath p := if p = "/app/bin/tool" then some "$ORIGIN/../lib:/opt/lib" else none
  ldLibraryPath := "/opt/extra::/srv/lib"

/-- A host on which `LD_LIBRARY_PATH` is
`/opt/extra/::/usr/lib:/srv//lib/../lib2:/opt/extra`: an empty component, one of the
fixed directories, two spellings of `/opt/extra`, and a path that is not clean. -/
def hostSeed : Host where
  pathExists _ := false
  isDirectory _ := false
  walk _ := []
  elfMagic _ := false
  importedLibraries _ := none
  printRpath _ := none
  ldLibraryPath := "/opt/extra/::/usr/lib:/srv//lib/../lib2:/opt/extra"

/-! ## Notions used in the statements and proofs -/

/-- The non-empty `:`-separated components of `LD_LIBRARY_PATH`, in their order, each
path-cleaned. -/
def ldLibraryPathComponents (ldpstr : String) : List String :=
  ((Split ldpstr ':').filter (fun ldp => ldp ≠ "")).map Clean

/-- How many of the paths in `files` are not in `allELFs` yet: the quantity that
decreases at every recursive call of `getDeps`. -/
def unseenCount (files allELFs : List String) : Nat :=
  (files.filter (fun p => !allELFs.contains p)).length

/-- A path element that `filepath.Clean` keeps as it is: not empty, not `.`, not `..`,
and without a separator. -/
def properComponent (c : List Char) : Prop :=
  c ≠ [] ∧ c ≠ ['.'] ∧ c ≠ ['.', '.'] ∧ '/' ∉ c

/-! ## Facts about the helpers -/

theorem AppendIfMissing_of_mem {l : List String} {x : String} (hx : x ∈ l) :
    AppendIfMissing l x = l := by
  simp [AppendIfMissing, hx]

theorem AppendIfMissing_of_not_mem {l : List String} {x : String} (hx : x ∉ l) :
    AppendIfMissing l x = l ++ [x] := by
  simp [AppendIfMissing, hx]

theorem AppendIfMissing_nodup {l : List String} (x : String) (hl : l.Nodup) :
    (AppendIfMissing l x).Nodup := by
  by_cases hx : x ∈ l
  · rw [AppendIfMissing_of_mem hx]; exact hl
  · rw [AppendIfMissing_of_not_mem hx]
    exact List.nodup_append.mpr ⟨hl, List.nodup_singleton x, by simpa using hx⟩

/-- Appending a list of strings one by one, each only if missing: the result is the
old list followed by the new strings in the order of their first occurrence. -/
theorem foldl_AppendIfMissing (xs : List String) :
    ∀ l : List String, ∃ rest : List String,
      xs.foldl AppendIfMissing l = l ++ rest ∧
      (∀ d, d ∈ rest ↔ d ∈ xs ∧ d ∉ l) ∧
      rest.Pairwise (fun x y => xs.indexOf x < xs.indexOf y) := by
  induction xs with
  | nil => intro l; exact ⟨[], by simp⟩
  | cons x xs ih =>
    intro l
    by_cases hx : x ∈ l
    · obtain ⟨rest, h1, h2, h3⟩ := ih l
      refine ⟨rest, ?_, ?_, ?_⟩
      · simp [List.foldl_cons, AppendIfMissing_of_mem hx, h1]
      · intro d
        rw [h2 d]
        constructor
        · rintro ⟨a, b⟩; exact ⟨List.mem_cons_of_mem _ a, b⟩
        · rintro ⟨a, b⟩
          rcases List.mem_cons.mp a with rfl | a
          · exact absurd hx b
          · exact ⟨a, b⟩
      · refine h3.imp_of_mem ?_
        intro a b ha hb hab
        have hax : a ≠ x := fun e => ((h2 a).mp ha).2 (e ▸ hx)
        have hbx : b ≠ x := fun e => ((h2 b).mp hb).2 (e ▸ hx)
        rw [List.indexOf_cons_ne _ hax.symm, List.indexOf_cons_ne _ hbx.symm]
        omega
    · obtain ⟨rest, h1, h2, h3⟩ := ih (l ++ [x])
      refine ⟨x :: rest, ?_, ?_, ?_⟩
      · simp [List.foldl_cons, AppendIfMissing_of_not_mem hx, h1]
      · intro d
        have hmem : d ∉ l ++ [x] ↔ d ∉ l ∧ d ≠ x := by simp
        rw [List.mem_cons, h2 d, hmem, List.mem_cons]
        constructor
        · rintro (rfl | ⟨a, b, _⟩)
          · exact ⟨Or.inl rfl, hx⟩
          · exact ⟨Or.inr a, b⟩
        · rintro ⟨rfl | a, b⟩
          · exact Or.inl rfl
          · by_cases hd : d = x
            · exact Or.inl hd
            · exact Or.inr ⟨a, b, hd⟩
      · refine List.pairwise_cons.mpr ⟨?_, ?_⟩
        · intro b hb
          have hbx : b ≠ x := fun e => by
            have := ((h2 b).mp hb).2
            exact this (by simp [e])
          rw [List.indexOf_cons_eq _ rfl, List.indexOf_cons_ne _ hbx.symm]
          omega
        · refine h3.imp_of_mem ?_
          intro a b ha hb hab
          have hax : a ≠ x := fun e => ((h2 a).mp ha).2 (by simp [e])
          have hbx : b ≠ x := fun e => ((h2 b).mp hb).2 (by simp [e])
          rw [List.indexOf_cons_ne _ hax.symm, List.indexOf_cons_ne _ hbx.symm]
          omega

theorem seedLocs_eq (l : List String) :
    seedLocs l = (locs.map Clean).foldl AppendIfMissing l := by
  simp [seedLocs, List.foldl_map]

theorem seedLdLibraryPath_eq (ldpstr : String) (l : List String) :
    seedLdLibraryPath ldpstr l = (ldLibraryPathComponents ldpstr).foldl AppendIfMissing l := by
  unfold seedLdLibraryPath ldLibraryPathComponents
  generalize Split ldpstr ':' = comps
  induction comps generalizing l with
  | nil => rfl
  | cons c cs ih =>
    by_cases hc : c = ""
    · simp_all [List.foldl_cons, List.filter_cons]
    · simp_all [List.foldl_cons, List.filter_cons]

theorem locs_clean : locs.map Clean = locs := by decide

/-! ## The resolver -/

theorem searchLocations_spec (h : Host) (filename : String) (l : List String) :
    (∃ pre d post, l = pre ++ d :: post ∧
        (∀ x ∈ pre, h.pathExists (x ++ "/" ++ filename) = false) ∧
        h.pathExists (d ++ "/" ++ filename) = true ∧
        searchLocations h filename l = StrResult.ok (d ++ "/" ++ filename)) ∨
    ((∀ d ∈ l, h.pathExists (d ++ "/" ++ filename) = false) ∧
        searchLocations h filename l = StrResult.err ("did not find library " ++ filename)) := by
  induction l with
  | nil => right; simp [searchLocations]
  | cons a l ih =>
    by_cases ha : h.pathExists (a ++ "/" ++ filename) = true
    · left
      exact ⟨[], a, l, rfl, by simp, ha, by simp [searchLocations, ha]⟩
    · have ha' : h.pathExists (a ++ "/" ++ filename) = false := by simpa using ha
      rcases ih with ⟨pre, d, post, h1, h2, h3, h4⟩ | ⟨h1, h2⟩
      · left
        refine ⟨a :: pre, d, post, by simp [h1], ?_, h3, by simp [searchLocations, ha', h4]⟩
        intro x hx
        rcases List.mem_cons.mp hx with rfl | hx
        · exact ha'
        · exact h2 x hx
      · right
        refine ⟨?_, by simp [searchLocations, ha', h2]⟩
        intro d hd
        rcases List.mem_cons.mp hd with rfl | hd
        · exact ha'
        · exact h1 d hd

/-- C3 (resolver policy).  For every library name and every prior state, with `l` the
list `libraryLocations` as it stands after the seeding done by the call: either `l`
splits as `pre ++ d :: post` where `d/name` exists and no entry of `pre` has the file,
and `findLibrary` returns `d + "/" + name`; or no entry of `l` has the file and it
returns the error `did not find library <name>`.  That error is returned if and only if
no entry of `l` has the file. -/
theorem findLibrary_policy (h : Host) (s : State) (filename : String) :
    ((∃ pre d post, (findLibrary h s filename).1.libraryLocations = pre ++ d :: post ∧
        (∀ x ∈ pre, h.pathExists (x ++ "/" ++ filename) = false) ∧
        h.pathExists (d ++ "/" ++ filename) = true ∧
        (findLibrary h s filename).2 = StrResult.ok (d ++ "/" ++ filename)) ∨
     ((∀ d ∈ (findLibrary h s filename).1.libraryLocations,
          h.pathExists (d ++ "/" ++ filename) = false) ∧
        (findLibrary h s filename).2 =
          StrResult.err ("did not find library " ++ filename))) ∧
    ((findLibrary h s filename).2 = StrResult.err ("did not find library " ++ filename) ↔
      ∀ d ∈ (findLibrary h s filename).1.libraryLocations,
        h.pathExists (d ++ "/" ++ filename) = false) := by
  have key := searchLocations_spec h filename
    (seedLdLibraryPath h.ldLibraryPath (seedLocs s.libraryLocations))
  refine ⟨key, ?_⟩
  constructor
  · intro herr
    rcases key with ⟨pre, d, post, _, _, _, h4⟩ | ⟨h1, _⟩
    · simp only [findLibrary] at herr
      rw [h4] at herr
      exact absurd herr (by simp)
    · exact h1
  · intro hnone
    rcases key with ⟨pre, d, post, h1, _, h3, _⟩ | ⟨_, h2⟩
    · have := hnone d (by simp [findLibrary, h1])
      rw [h3] at this
      exact absurd this (by simp)
    · exact h2

/-! ## The lists only grow, without duplicates -/

/-- The second list is the first followed by further entries and, when the first list
has no duplicates, neither has the second. -/
theorem extends_refl (l : List String) :
    ∃ e, l = l ++ e ∧ (l.Nodup → (l ++ e).Nodup) :=
  ⟨[], by simp, by simp⟩

theorem extends_trans {l1 l2 l3 : List String}
    (h12 : ∃ e, l2 = l1 ++ e ∧ (l1.Nodup → (l1 ++ e).Nodup))
    (h23 : ∃ e, l3 = l2 ++ e ∧ (l2.Nodup → (l2 ++ e).Nodup)) :
    ∃ e, l3 = l1 ++ e ∧ (l1.Nodup → (l1 ++ e).Nodup) := by
  obtain ⟨e1, rfl, n1⟩ := h12
  obtain ⟨e2, rfl, n2⟩ := h23
  exact ⟨e1 ++ e2, by simp, fun hn => by simpa using n2 (n1 hn)⟩

theorem extends_AppendIfMissing (l : List String) (x : String) :
    ∃ e, AppendIfMissing l x = l ++ e ∧ (l.Nodup → (l ++ e).Nodup) := by
  by_cases hx : x ∈ l
  · exact ⟨[], by simp [AppendIfMissing_of_mem hx], by simp⟩
  · refine ⟨[x], AppendIfMissing_of_not_mem hx, fun hn => ?_⟩
    rw [← AppendIfMissing_of_not_mem hx]
    exact AppendIfMissing_nodup x hn

theorem extends_foldl {β : Type} (f : List String → β → List String)
    (hf : ∀ l b, ∃ e, f l b = l ++ e ∧ (l.Nodup → (l ++ e).Nodup)) (xs : List β) :
    ∀ l, ∃ e, xs.foldl f l = l ++ e ∧ (l.Nodup → (l ++ e).Nodup) := by
  induction xs with
  | nil => intro l; exact extends_refl l
  | cons x xs ih => intro l; exact extends_trans (hf l x) (ih (f l x))

theorem extends_seedLocs (l : List String) :
    ∃ e, seedLocs l = l ++ e ∧ (l.Nodup → (l ++ e).Nodup) :=
  extends_foldl _ (fun l loc => extends_AppendIfMissing l (Clean loc)) locs l

theorem extends_seedLdLibraryPath (ldpstr : String) (l : List String) :
    ∃ e, seedLdLibraryPath ldpstr l = l ++ e ∧ (l.Nodup → (l ++ e).Nodup) := by
  refine extends_foldl _ (fun l ldp => ?_) (Split ldpstr ':') l
  dsimp only
  split
  · exact extends_AppendIfMissing l (Clean ldp)
  · exact extends_refl l

theorem extends_findLibrary (h : Host) (s : State) (filename : String) :
    ∃ e, (findLibrary h s filename).1.libraryLocations = s.libraryLocations ++ e ∧
      (s.libraryLocations.Nodup → (s.libraryLocations ++ e).Nodup) :=
  extends_trans (extends_seedLocs s.libraryLocations)
    (extends_seedLdLibraryPath h.ldLibraryPath (seedLocs s.libraryLocations))

theorem extends_addRpaths (path : String) (rpaths : List String) (l : List String) :
    ∃ e, addRpaths path rpaths l = l ++ e ∧ (l.Nodup → (l ++ e).Nodup) := by
  refine extends_foldl _ (fun l rpath => ?_) rpaths l
  dsimp only
  split
  · exact extends_AppendIfMissing l _
  · exact extends_refl l

theorem extends_appendLib {h : Host} {s s1 : State} {path : String}
    (hs : appendLib h s path = some s1) :
    (∃ e, s1.allELFs = s.allELFs ++ e ∧ (s.allELFs.Nodup → (s.allELFs ++ e).Nodup)) ∧
    (∃ e, s1.libraryLocations = s.libraryLocations ++ e ∧
      (s.libraryLocations.Nodup → (s.libraryLocations ++ e).Nodup)) := by
  unfold appendLib at hs
  split at hs
  · exact absurd hs (by simp)
  · next rpaths _ =>
    simp only [Option.some.injEq] at hs
    subst hs
    exact ⟨extends_AppendIfMissing _ _,
      extends_trans (extends_addRpaths path rpaths s.libraryLocations)
        (extends_AppendIfMissing _ _)⟩

theorem findLibrary_allELFs (h : Host) (s : State) (filename : String) :
    (findLibrary h s filename).1.allELFs = s.allELFs := rfl

/-- C9 (append-only, duplicate-free lists).  Started from a state in which `allELFs` and
`libraryLocations` have no duplicates, `appendLib(x)` (when it returns) and
`findLibrary(x)` each leave `allELFs` and `libraryLocations` equal to the list before the
call followed by new entries, and the resulting list has no duplicates: nothing is
removed or reordered, no new entry was already present, none is repeated. -/
theorem lists_append_only (h : Host) (s : State) (x : String)
    (hE : s.allELFs.Nodup) (hL : s.libraryLocations.Nodup) :
    (∀ s1, appendLib h s x = some s1 →
      (∃ e, s1.allELFs = s.allELFs ++ e ∧ (s.allELFs ++ e).Nodup) ∧
      (∃ e, s1.libraryLocations = s.libraryLocations ++ e ∧
        (s.libraryLocations ++ e).Nodup)) ∧
    ((∃ e, (findLibrary h s x).1.allELFs = s.allELFs ++ e ∧ (s.allELFs ++ e).Nodup) ∧
      (∃ e, (findLibrary h s x).1.libraryLocations = s.libraryLocations ++ e ∧
        (s.libraryLocations ++ e).Nodup)) := by
  refine ⟨fun s1 hs => ?_, ⟨[], by simp [findLibrary_allELFs], by simpa using hE⟩, ?_⟩
  · obtain ⟨⟨e1, h1, n1⟩, ⟨e2, h2, n2⟩⟩ := extends_appendLib hs
    exact ⟨⟨e1, h1, n1 hE⟩, ⟨e2, h2, n2 hL⟩⟩
  · obtain ⟨e, h1, n1⟩ := extends_findLibrary h s x
    exact ⟨e, h1, n1 hL⟩

/-- Witness for `lists_append_only`: the object `/app/tool` of `hostCycle`, whose rpath
names `/opt/lib`, in a state that already holds one object and the directory `/app`. -/
theorem lists_append_only_witness :
    (∀ s1, appendLib hostCycle ⟨["/app/other"], ["/app"]⟩ "/app/tool" = some s1 →
      (∃ e, s1.allELFs = ["/app/other"] ++ e ∧ (["/app/other"] ++ e).Nodup) ∧
      (∃ e, s1.libraryLocations = ["/app"] ++ e ∧ (["/app"] ++ e).Nodup)) ∧
    ((∃ e, (findLibrary hostCycle ⟨["/app/other"], ["/app"]⟩ "/app/tool").1.allELFs
          = ["/app/other"] ++ e ∧ (["/app/other"] ++ e).Nodup) ∧
      (∃ e, (findLibrary hostCycle ⟨["/app/other"], ["/app"]⟩ "/app/tool").1.libraryLocations
          = ["/app"] ++ e ∧ (["/app"] ++ e).Nodup)) :=
  lists_append_only hostCycle ⟨["/app/other"], ["/app"]⟩ "/app/tool" (by decide) (by decide)

/-! ## Seeding is idempotent -/

theorem mem_foldl_AppendIfMissing (xs l : List String) (x : String) :
    x ∈ xs.foldl AppendIfMissing l ↔ x ∈ l ∨ x ∈ xs := by
  obtain ⟨rest, h1, h2, _⟩ := foldl_AppendIfMissing xs l
  rw [h1, List.mem_append, h2 x]
  constructor
  · rintro (a | ⟨a, _⟩)
    · exact Or.inl a
    · exact Or.inr a
  · rintro (a | a)
    · exact Or.inl a
    · by_cases hx : x ∈ l
      · exact Or.inl hx
      · exact Or.inr ⟨a, hx⟩

theorem foldl_AppendIfMissing_of_subset (xs : List String) :
    ∀ l : List String, (∀ x ∈ xs, x ∈ l) → xs.foldl AppendIfMissing l = l := by
  induction xs with
  | nil => intro l _; rfl
  | cons x xs ih =>
    intro l hl
    rw [List.foldl_cons, AppendIfMissing_of_mem (hl x (List.mem_cons_self _ _))]
    exact ih l (fun y hy => hl y (List.mem_cons_of_mem _ hy))

theorem seeded_eq (ldpstr : String) (l : List String) :
    seedLdLibraryPath ldpstr (seedLocs l) =
      (ldLibraryPathComponents ldpstr).foldl AppendIfMissing (locs.foldl AppendIfMissing l) := by
  rw [seedLdLibraryPath_eq, seedLocs_eq, locs_clean]

theorem mem_seeded (ldpstr : String) (l : List String) (x : String) :
    x ∈ seedLdLibraryPath ldpstr (seedLocs l) ↔
      x ∈ l ∨ x ∈ locs ∨ x ∈ ldLibraryPathComponents ldpstr := by
  rw [seeded_eq, mem_foldl_AppendIfMissing, mem_foldl_AppendIfMissing, or_assoc]

theorem seeded_idem (ldpstr : String) (l : List String) :
    seedLdLibraryPath ldpstr (seedLocs (seedLdLibraryPath ldpstr (seedLocs l))) =
      seedLdLibraryPath ldpstr (seedLocs l) := by
  have h1 : locs.foldl AppendIfMissing (seedLdLibraryPath ldpstr (seedLocs l)) =
      seedLdLibraryPath ldpstr (seedLocs l) :=
    foldl_AppendIfMissing_of_subset _ _ (fun x hx => (mem_seeded ldpstr l x).mpr (Or.inr (Or.inl hx)))
  have h2 : (ldLibraryPathComponents ldpstr).foldl AppendIfMissing
      (seedLdLibraryPath ldpstr (seedLocs l)) = seedLdLibraryPath ldpstr (seedLocs l) :=
    foldl_AppendIfMissing_of_subset _ _ (fun x hx => (mem_seeded ldpstr l x).mpr (Or.inr (Or.inr hx)))
  rw [seeded_eq ldpstr (seedLdLibraryPath ldpstr (seedLocs l)), h1, h2]

theorem findLibrary_twice (h : Host) (s : State) (filename : String) :
    findLibrary h (findLibrary h s filename).1 filename = findLibrary h s filename := by
  simp only [findLibrary, seeded_idem]

theorem findLibrary_subset (h : Host) (s : State) (filename : String) :
    s.libraryLocations ⊆ (findLibrary h s filename).1.libraryLocations := by
  obtain ⟨e, h1, _⟩ := extends_findLibrary h s filename
  rw [h1]; exact List.subset_append_left _ _

theorem findLibrary_ok {h : Host} {s : State} {filename p : String}
    (hp : (findLibrary h s filename).2 = StrResult.ok p) :
    h.pathExists p = true ∧
      ∃ d ∈ (findLibrary h s filename).1.libraryLocations,
        h.pathExists (d ++ "/" ++ filename) = true := by
  rcases searchLocations_spec h filename
    (seedLdLibraryPath h.ldLibraryPath (seedLocs s.libraryLocations)) with
    ⟨pre, d, post, h1, _, h3, h4⟩ | ⟨_, h2⟩
  · simp only [findLibrary] at hp ⊢
    rw [h4] at hp
    simp only [StrResult.ok.injEq] at hp
    subst hp
    exact ⟨h3, d, by simp [h1], h3⟩
  · simp only [findLibrary] at hp
    rw [h2] at hp
    exact absurd hp (by simp)

/-- A library that some directory of `libraryLocations` holds is resolved. -/
theorem findLibrary_of_mem {h : Host} {s : State} {filename d : String}
    (hd : d ∈ s.libraryLocations) (hex : h.pathExists (d ++ "/" ++ filename) = true) :
    ∃ p, (findLibrary h s filename).2 = StrResult.ok p := by
  rcases searchLocations_spec h filename
    (seedLdLibraryPath h.ldLibraryPath (seedLocs s.libraryLocations)) with
    ⟨pre, d1, post, _, _, _, h4⟩ | ⟨h1, _⟩
  · exact ⟨_, by simp only [findLibrary]; exact h4⟩
  · have := h1 d (findLibrary_subset h s filename hd)
    rw [hex] at this
    exact absurd this (by simp)

/-! ## Termination measure -/

theorem unseenCount_mono (files : List String) {E E1 : List String} (hsub : E ⊆ E1) :
    unseenCount files E1 ≤ unseenCount files E := by
  unfold unseenCount
  induction files with
  | nil => simp
  | cons a rest ih =>
    by_cases h1 : a ∈ E1 <;> by_cases h0 : a ∈ E
    · simpa [List.filter_cons, h1, h0] using ih
    · simp only [List.filter_cons]
      simp [h1, h0] at ih ⊢
      omega
    · exact absurd (hsub h0) h1
    · simpa [List.filter_cons, h1, h0] using ih

theorem unseenCount_lt (files : List String) {E E1 : List String} {p : String}
    (hsub : E ⊆ E1) (hp : p ∈ files) (hE : p ∉ E) (hE1 : p ∈ E1) :
    unseenCount files E1 < unseenCount files E := by
  induction files with
  | nil => exact absurd hp (List.not_mem_nil p)
  | cons a rest ih =>
    have hmono := unseenCount_mono rest hsub
    unfold unseenCount at hmono ih ⊢
    by_cases hpa : p = a
    · subst hpa
      simp only [List.filter_cons]
      simp [hE, hE1] at hmono ⊢
      omega
    · have hp1 : p ∈ rest := by
        rcases List.mem_cons.mp hp with e | e
        · exact absurd e hpa
        · exact e
      have ih1 := ih hp1
      by_cases h1 : a ∈ E1 <;> by_cases h0 : a ∈ E
      · simpa [List.filter_cons, h1, h0] using ih1
      · simp only [List.filter_cons]
        simp [h1, h0] at ih1 ⊢
        omega
      · exact absurd (hsub h0) h1
      · simpa [List.filter_cons, h1, h0] using ih1

/-! ## The recursion of `getDeps` -/

theorem appendLib_allELFs {h : Host} {s s1 : State} {path : String}
    (hs : appendLib h s path = some s1) : s1.allELFs = AppendIfMissing s.allELFs path := by
  unfold appendLib at hs
  split at hs
  · exact absurd hs (by simp)
  · simp only [Option.some.injEq] at hs
    subst hs
    rfl

theorem appendLib_subset {h : Host} {s s1 : State} {path : String}
    (hs : appendLib h s path = some s1) :
    s.allELFs ⊆ s1.allELFs ∧ s.libraryLocations ⊆ s1.libraryLocations := by
  obtain ⟨⟨e1, h1, _⟩, ⟨e2, h2, _⟩⟩ := extends_appendLib hs
  rw [h1, h2]
  exact ⟨List.subset_append_left _ _, List.subset_append_left _ _⟩

/-- The loop of `getDeps`, given that the recursive call ends and only adds entries
whenever fewer than `fuel` existing files are still unseen: the loop ends, only adds
entries, and when it returns `nil` every library of the list is resolved in the state
it returns. -/
theorem depsLoop_spec (h : Host) (files : List String)
    (hfin : ∀ p, h.pathExists p = true → p ∈ files) (fuel : Nat)
    (recur : State → String → Outcome)
    (hrec : ∀ s obj, unseenCount files s.allELFs < fuel →
      recur s obj ≠ Outcome.outOfFuel ∧
      ∀ err s1, recur s obj = Outcome.returned err s1 →
        s.allELFs ⊆ s1.allELFs ∧ s.libraryLocations ⊆ s1.libraryLocations) :
    ∀ (libs : List String) (s : State), unseenCount files s.allELFs ≤ fuel →
      depsLoop h recur s libs ≠ Outcome.outOfFuel ∧
      ∀ err s1, depsLoop h recur s libs = Outcome.returned err s1 →
        s.allELFs ⊆ s1.allELFs ∧ s.libraryLocations ⊆ s1.libraryLocations ∧
        (err = none → ∀ n ∈ libs, ∃ p, (findLibrary h s1 n).2 = StrResult.ok p) := by
  intro libs
  induction libs with
  | nil =>
    intro s _
    refine ⟨by simp [depsLoop], ?_⟩
    intro err s1 heq
    simp only [depsLoop, Outcome.returned.injEq] at heq
    obtain ⟨_, rfl⟩ := heq
    exact ⟨List.Subset.refl _, List.Subset.refl _, by simp⟩
  | cons lib rest ih =>
    intro s hs
    rw [depsLoop]
    rcases hF : findLibrary h s lib with ⟨sa, r⟩
    have hsaE : sa.allELFs = s.allELFs := by
      have := findLibrary_allELFs h s lib
      rw [hF] at this; exact this
    have hsaL : s.libraryLocations ⊆ sa.libraryLocations := by
      have := findLibrary_subset h s lib
      rw [hF] at this; exact this
    cases r with
    | err e =>
      dsimp only
      refine ⟨by simp, ?_⟩
      intro err s1 heq
      simp only [Outcome.returned.injEq] at heq
      obtain ⟨rfl, rfl⟩ := heq
      exact ⟨by rw [hsaE]; exact List.Subset.refl _, hsaL, by simp⟩
    | ok p =>
      dsimp only
      have hok : (findLibrary h s lib).2 = StrResult.ok p := by rw [hF]
      obtain ⟨hpex, d, hd, hdex⟩ := findLibrary_ok hok
      rw [hF] at hd
      have hres : ∀ s1 : State, sa.libraryLocations ⊆ s1.libraryLocations →
          ∃ q, (findLibrary h s1 lib).2 = StrResult.ok q :=
        fun s1 hsub => findLibrary_of_mem (hsub hd) hdex
      by_cases hc : SliceContains sa.allELFs p = true
      · rw [if_pos hc]
        obtain ⟨h1, h2⟩ := ih sa (by rw [hsaE]; exact hs)
        refine ⟨h1, ?_⟩
        intro err s1 heq
        obtain ⟨a, b, c⟩ := h2 err s1 heq
        refine ⟨by rw [← hsaE]; exact a, List.Subset.trans hsaL b, ?_⟩
        intro he n hn
        rcases List.mem_cons.mp hn with rfl | hn
        · exact hres s1 b
        · exact c he n hn
      · rw [if_neg hc]
        have hpE : p ∉ sa.allELFs := by simpa [SliceContains] using hc
        have htw : findLibrary h sa lib = (sa, StrResult.ok p) := by
          have := findLibrary_twice h s lib
          rw [hF] at this; exact this
        simp only [htw]
        cases hA : appendLib h sa p with
        | none => simp
        | some s3 =>
          dsimp only
          obtain ⟨hE3, hL3⟩ := appendLib_subset hA
          have hp3 : p ∈ s3.allELFs := by
            rw [appendLib_allELFs hA, AppendIfMissing_of_not_mem hpE]; simp
          have hlt : unseenCount files s3.allELFs < unseenCount files sa.allELFs :=
            unseenCount_lt files hE3 (hfin p hpex) hpE hp3
          have hs3 : unseenCount files s3.allELFs < fuel := by
            rw [hsaE] at hlt; omega
          obtain ⟨hr1, hr2⟩ := hrec s3 p hs3
          cases hr : recur s3 p with
          | outOfFuel => exact absurd hr hr1
          | exited => simp
          | returned e4 s4 =>
            dsimp only
            obtain ⟨hE4, hL4⟩ := hr2 e4 s4 hr
            have hs4 : unseenCount files s4.allELFs ≤ fuel := by
              have := unseenCount_mono files hE4
              omega
            obtain ⟨h1, h2⟩ := ih s4 hs4
            refine ⟨h1, ?_⟩
            intro err s1 heq
            obtain ⟨a, b, c⟩ := h2 err s1 heq
            refine ⟨?_, ?_, ?_⟩
            · rw [← hsaE]
              exact List.Subset.trans hE3 (List.Subset.trans hE4 a)
            · exact List.Subset.trans hsaL (List.Subset.trans hL3 (List.Subset.trans hL4 b))
            · intro he n hn
              rcases List.mem_cons.mp hn with rfl | hn
              · exact hres s1 (List.Subset.trans hL3 (List.Subset.trans hL4 b))
              · exact c he n hn

/-- With more fuel than there are unseen files, `getDeps` ends and only adds entries. -/
theorem getDeps_grows (h : Host) (files : List String)
    (hfin : ∀ p, h.pathExists p = true → p ∈ files) :
    ∀ (fuel : Nat) (s : State) (obj : String), unseenCount files s.allELFs < fuel →
      getDeps h fuel s obj ≠ Outcome.outOfFuel ∧
      ∀ err s1, getDeps h fuel s obj = Outcome.returned err s1 →
        s.allELFs ⊆ s1.allELFs ∧ s.libraryLocations ⊆ s1.libraryLocations := by
  intro fuel
  induction fuel with
  | zero => intro s obj hlt; exact absurd hlt (Nat.not_lt_zero _)
  | succ fuel ih =>
    intro s obj hlt
    rw [getDeps]
    by_cases hex : h.pathExists obj = false
    · rw [if_pos hex]
      refine ⟨by simp, ?_⟩
      intro err s1 heq
      simp only [Outcome.returned.injEq] at heq
      obtain ⟨_, rfl⟩ := heq
      exact ⟨List.Subset.refl _, List.Subset.refl _⟩
    · rw [if_neg hex]
      cases hI : h.importedLibraries obj with
      | none => simp
      | some libs =>
        dsimp only
        obtain ⟨h1, h2⟩ := depsLoop_spec h files hfin fuel (getDeps h fuel) ih libs s (by omega)
        refine ⟨h1, ?_⟩
        intro err s1 heq
        obtain ⟨a, b, _⟩ := h2 err s1 heq
        exact ⟨a, b⟩

theorem unseenCount_le_length (files E : List String) : unseenCount files E ≤ files.length :=
  List.length_filter_le _ _

theorem depsLoop_congr (h : Host) (r1 r2 : State → String → Outcome)
    (hr : ∀ s obj, r1 s obj ≠ Outcome.outOfFuel → r2 s obj = r1 s obj) :
    ∀ (libs : List String) (s : State), depsLoop h r1 s libs ≠ Outcome.outOfFuel →
      depsLoop h r2 s libs = depsLoop h r1 s libs := by
  intro libs
  induction libs with
  | nil => intro s _; rfl
  | cons lib rest ih =>
    intro s hne
    rw [depsLoop] at hne
    rw [depsLoop, depsLoop]
    generalize findLibrary h s lib = fr at hne ⊢
    rcases fr with ⟨sa, r⟩
    cases r with
    | err e => rfl
    | ok p =>
      dsimp only at hne ⊢
      by_cases hc : SliceContains sa.allELFs p = true
      · simp only [if_pos hc] at hne ⊢
        exact ih sa hne
      · simp only [if_neg hc] at hne ⊢
        generalize (match (findLibrary h sa lib).2 with
              | StrResult.ok q => q
              | StrResult.err _ => "") = libPath at hne ⊢
        cases hA : appendLib h (findLibrary h sa lib).1 libPath with
        | none => rfl
        | some s3 =>
          rw [hA] at hne
          dsimp only at hne ⊢
          cases h1 : r1 s3 libPath with
          | outOfFuel => rw [h1] at hne; exact absurd rfl hne
          | exited => rw [hr s3 libPath (by rw [h1]; simp), h1]
          | returned e4 s4 =>
            rw [h1] at hne
            rw [hr s3 libPath (by rw [h1]; simp), h1]
            exact ih s4 hne

theorem getDeps_succ (h : Host) :
    ∀ (fuel : Nat) (s : State) (obj : String), getDeps h fuel s obj ≠ Outcome.outOfFuel →
      getDeps h (fuel + 1) s obj = getDeps h fuel s obj := by
  intro fuel
  induction fuel with
  | zero => intro s obj hne; exact absurd rfl hne
  | succ fuel ih =>
    intro s obj hne
    rw [getDeps] at hne
    rw [getDeps, getDeps]
    by_cases hex : h.pathExists obj = false
    · simp only [if_pos hex]
    · simp only [if_neg hex] at hne ⊢
      cases hI : h.importedLibraries obj with
      | none => rfl
      | some libs =>
        rw [hI] at hne
        exact depsLoop_congr h (getDeps h fuel) (getDeps h (fuel + 1)) ih libs s hne

theorem getDeps_add (h : Host) (fuel : Nat) (s : State) (obj : String)
    (hne : getDeps h fuel s obj ≠ Outcome.outOfFuel) :
    ∀ k, getDeps h (fuel + k) s obj = getDeps h fuel s obj := by
  intro k
  induction k with
  | zero => rfl
  | succ k ih =>
    rw [← Nat.add_assoc, getDeps_succ h (fuel + k) s obj (by rw [ih]; exact hne), ih]

/-- C10 (termination of the closure).  On a host whose existing paths all lie in a
finite list `files`, whatever the imports are (cycles included), `getDeps(obj)` ends
from every state: one outcome other than running out of the step bound is produced by
every bound above the number of files.  The bound suffices because every recursive
call is preceded by `appendLib` on an existing path that was not in `allELFs`. -/
theorem getDeps_terminates (h : Host) (files : List String)
    (hfin : ∀ p, h.pathExists p = true → p ∈ files) (s : State) (obj : String) :
    ∃ out : Outcome, out ≠ Outcome.outOfFuel ∧
      ∀ fuel, files.length < fuel → getDeps h fuel s obj = out := by
  have hlt : unseenCount files s.allELFs < files.length + 1 :=
    Nat.lt_succ_of_le (unseenCount_le_length files s.allELFs)
  have hne := (getDeps_grows h files hfin (files.length + 1) s obj hlt).1
  refine ⟨getDeps h (files.length + 1) s obj, hne, ?_⟩
  intro fuel hfuel
  obtain ⟨k, rfl⟩ : ∃ k, fuel = files.length + 1 + k := ⟨fuel - (files.length + 1), by omega⟩
  exact getDeps_add h (files.length + 1) s obj hne k

/-- Witness for `getDeps_terminates`: the host `hostCycle`, whose two libraries import
each other and one of them itself. -/
theorem getDeps_terminates_witness :
    ∃ out : Outcome, out ≠ Outcome.outOfFuel ∧
      ∀ fuel, ["/app", "/app/tool", "/opt/lib/liba.so", "/opt/lib/libb.so"].length < fuel →
        getDeps hostCycle fuel ⟨["/app/tool"], ["/opt/lib", "/app"]⟩ "/app/tool" = out :=
  getDeps_terminates hostCycle ["/app", "/app/tool", "/opt/lib/liba.so", "/opt/lib/libb.so"]
    (fun p hp => by simpa [hostCycle] using hp) ⟨["/app/tool"], ["/opt/lib", "/app"]⟩ "/app/tool"

/-! ## Unresolved dependencies -/

/-- Direct imports are reported.  On a host whose existing paths lie in a finite list,
`getDeps(obj)` ends, and when it returns `nil` every library name that `obj` imports
directly is resolved by `findLibrary` in the state it returns (lines 643-647). -/
theorem getDeps_direct_imports (h : Host) (files : List String)
    (hfin : ∀ p, h.pathExists p = true → p ∈ files) (s : State) (obj : String)
    (libs : List String) (himp : h.importedLibraries obj = some libs)
    (fuel : Nat) (hfuel : files.length < fuel) :
    getDeps h fuel s obj ≠ Outcome.outOfFuel ∧
    ∀ s1, getDeps h fuel s obj = Outcome.returned none s1 →
      ∀ n ∈ libs, ∃ p, (findLibrary h s1 n).2 = StrResult.ok p := by
  obtain ⟨k, rfl⟩ : ∃ k, fuel = k + 1 := ⟨fuel - 1, by omega⟩
  have hk : unseenCount files s.allELFs ≤ k := by
    have := unseenCount_le_length files s.allELFs
    omega
  have hrec := getDeps_grows h files hfin k
  obtain ⟨h1, h2⟩ := depsLoop_spec h files hfin k (getDeps h k) hrec libs s hk
  rw [getDeps]
  by_cases hex : h.pathExists obj = false
  · simp [if_pos hex]
  · simp only [if_neg hex, himp]
    exact ⟨h1, fun s1 heq => (h2 none s1 heq).2.2 rfl⟩

/-- An instance of `getDeps_direct_imports`: `/app/tool` on `hostDeepMissing`. -/
theorem getDeps_direct_imports_witness :
    getDeps hostDeepMissing 4 ⟨["/app/tool"], ["/app"]⟩ "/app/tool" ≠ Outcome.outOfFuel ∧
    ∀ s1, getDeps hostDeepMissing 4 ⟨["/app/tool"], ["/app"]⟩ "/app/tool"
        = Outcome.returned none s1 →
      ∀ n ∈ ["liba.so"], ∃ p, (findLibrary hostDeepMissing s1 n).2 = StrResult.ok p :=
  getDeps_direct_imports hostDeepMissing ["/app", "/app/tool", "/usr/lib/liba.so"]
    (fun p hp => by simpa [hostDeepMissing] using hp) ⟨["/app/tool"], ["/app"]⟩ "/app/tool"
    ["liba.so"] rfl 4 (by decide)

/-- C2, the code at the failing input.  On `hostDeepMissing`, in the state the first loop
of `determineELFsInDirTree("/app")` leaves, `/app/tool` imports `liba.so`, which resolves
to `/usr/lib/liba.so`, not yet in `allELFs`; that library imports `libmissing.so`, which
`findLibrary` resolves neither before nor after the call.  `getDeps("/app/tool")`
returns `nil`: the error of the recursive call on `/usr/lib/liba.so` is only printed. -/
theorem getDeps_nil_despite_unresolved :
    appendLibs hostDeepMissing ⟨[], []⟩
        (findAllExecutablesAndLibraries hostDeepMissing "/app")
      = some ⟨["/app/tool"], ["/app"]⟩ ∧
    hostDeepMissing.importedLibraries "/app/tool" = some ["liba.so"] ∧
    (findLibrary hostDeepMissing ⟨["/app/tool"], ["/app"]⟩ "liba.so").2
      = StrResult.ok "/usr/lib/liba.so" ∧
    SliceContains ["/app/tool"] "/usr/lib/liba.so" = false ∧
    hostDeepMissing.importedLibraries "/usr/lib/liba.so" = some ["libmissing.so"] ∧
    (findLibrary hostDeepMissing ⟨["/app/tool"], ["/app"]⟩ "libmissing.so").2
      = StrResult.err "did not find library libmissing.so" ∧
    getDeps hostDeepMissing 4 ⟨["/app/tool"], ["/app"]⟩ "/app/tool"
      = Outcome.returned none ⟨["/app/tool", "/usr/lib/liba.so"], ["/app"] ++ locs⟩ ∧
    (∀ fuel, 3 < fuel → getDeps hostDeepMissing fuel ⟨["/app/tool"], ["/app"]⟩ "/app/tool"
      = Outcome.returned none ⟨["/app/tool", "/usr/lib/liba.so"], ["/app"] ++ locs⟩) := by
  have h4 : getDeps hostDeepMissing 4 ⟨["/app/tool"], ["/app"]⟩ "/app/tool"
      = Outcome.returned none ⟨["/app/tool", "/usr/lib/liba.so"], ["/app"] ++ locs⟩ := by
    decide
  refine ⟨by decide, by decide, by decide, by decide, by decide, by decide, h4, ?_⟩
  intro fuel hfuel
  obtain ⟨k, rfl⟩ : ∃ k, fuel = 4 + k := ⟨fuel - 4, by omega⟩
  rw [getDeps_add hostDeepMissing 4 _ _ (by rw [h4]; exact fun e => Outcome.noConfusion e) k]
  exact h4

/-- C1, the code at the failing input.  On `hostDeepMissing`, from the empty state,
`determineELFsInDirTree("/app")` completes without stopping the process; `allELFs` then
holds `/usr/lib/liba.so`, whose import `libmissing.so` is not resolved by `findLibrary`
in the final state.  The call of `getDeps` on `/usr/lib/liba.so` did return the error;
the caller in `getDeps` only printed it. -/
theorem closure_open_after_swallowed_error :
    determineELFsInDirTree hostDeepMissing 5 ⟨[], []⟩ "/app"
      = Outcome.returned none ⟨["/app/tool", "/usr/lib/liba.so"], ["/app"] ++ locs⟩ ∧
    hostDeepMissing.importedLibraries "/usr/lib/liba.so" = some ["libmissing.so"] ∧
    (findLibrary hostDeepMissing ⟨["/app/tool", "/usr/lib/liba.so"], ["/app"] ++ locs⟩
        "libmissing.so").2 = StrResult.err "did not find library libmissing.so" ∧
    getDeps hostDeepMissing 4 ⟨["/app/tool", "/usr/lib/liba.so"], ["/app"] ++ locs⟩
        "/usr/lib/liba.so"
      = Outcome.returned (some "did not find library libmissing.so")
          ⟨["/app/tool", "/usr/lib/liba.so"], ["/app"] ++ locs⟩ := by
  decide

/-! ## The substitution of `PatchFile` -/

/-- Induction along the replacement loop: a relation between input and output that
holds for the empty input, is kept when an occurrence of `old` is replaced by `new`,
and is kept when one element is copied, holds for the loop's result. -/
theorem replaceLoop_induction {α : Type} [DecidableEq α] (old new : List α)
    (hold : old ≠ []) (P : List α → List α → Prop) (h0 : P [] [])
    (hmatch : ∀ t out, P t out → P (old ++ t) (new ++ out))
    (hcopy : ∀ c cs out, ¬ old <+: c :: cs → P cs out → P (c :: cs) (c :: out)) :
    ∀ (n : Nat) (s : List α), s.length ≤ n → P s (replaceLoop old new n s) := by
  intro n
  induction n with
  | zero =>
    intro s hs
    have : s = [] := List.length_eq_zero.mp (Nat.le_zero.mp hs)
    subst this
    exact h0
  | succ n ih =>
    intro s hs
    cases s with
    | nil => exact h0
    | cons c cs =>
      rw [replaceLoop]
      by_cases hp : old.isPrefixOf (c :: cs) = true
      · rw [if_pos hp]
        obtain ⟨t, ht⟩ := List.isPrefixOf_iff_prefix.mp hp
        rw [← ht, List.drop_left]
        refine hmatch t _ (ih t ?_)
        have hlen : (c :: cs).length = old.length + t.length := by rw [← ht, List.length_append]
        have hpos : 0 < old.length := List.length_pos.mpr hold
        simp only [List.length_cons] at hlen hs
        omega
      · rw [if_neg hp]
        refine hcopy c cs _ (fun hpre => hp (List.isPrefixOf_iff_prefix.mpr hpre)) (ih cs ?_)
        simp only [List.length_cons] at hs
        omega

theorem goBytes_usr : goBytes "/usr" = [47, 117, 115, 114] := by decide

theorem goBytes_xxx : goBytes "/xxx" = [47, 120, 120, 120] := by decide

theorem PatchFile_usr_xxx (input : List UInt8) :
    PatchFile input "/usr" "/xxx" =
      some (replaceLoop [47, 117, 115, 114] [47, 120, 120, 120] input.length input) := by
  simp [PatchFile, bytesReplaceAll, goBytes_usr, goBytes_xxx]

/-- In the output of the `/usr` to `/xxx` substitution, a run of bytes without `/` at
the start of the output is at the start of the input too, and `/usr` does not occur. -/
theorem replace_usr_xxx_clean :
    ∀ (n : Nat) (s : List UInt8), s.length ≤ n →
      (∀ w : List UInt8, (∀ b ∈ w, b ≠ 47) →
        w <+: replaceLoop [47, 117, 115, 114] [47, 120, 120, 120] n s → w <+: s) ∧
      ¬ [47, 117, 115, 114] <:+: replaceLoop [47, 117, 115, 114] [47, 120, 120, 120] n s := by
  refine replaceLoop_induction [47, 117, 115, 114] [47, 120, 120, 120] (by simp)
    (fun s out => (∀ w : List UInt8, (∀ b ∈ w, b ≠ 47) → w <+: out → w <+: s) ∧
      ¬ [47, 117, 115, 114] <:+: out) ?_ ?_ ?_
  · refine ⟨fun w _ hw => hw, ?_⟩
    simp
  · rintro t out ⟨_, ih2⟩
    refine ⟨?_, ?_⟩
    · intro w hw hpre
      cases w with
      | nil => exact List.nil_prefix
      | cons b w =>
        have hb : b ≠ 47 := hw b (List.mem_cons_self _ _)
        have : b = 47 := by
          have := hpre
          simp only [List.cons_append, List.cons_prefix_cons] at this
          exact this.1
        exact absurd this hb
    · intro hin
      simp only [List.cons_append, List.nil_append, List.infix_cons_iff,
        List.cons_prefix_cons] at hin
      rcases hin with hin | hin | hin | hin | hin
      · exact absurd hin.2.1 (by decide)
      · exact absurd hin.1 (by decide)
      · exact absurd hin.1 (by decide)
      · exact absurd hin.1 (by decide)
      · exact ih2 hin
  · rintro c cs out hnot ⟨ih1, ih2⟩
    refine ⟨?_, ?_⟩
    · intro w hw hpre
      cases w with
      | nil => exact List.nil_prefix
      | cons b w =>
        simp only [List.cons_prefix_cons] at hpre ⊢
        exact ⟨hpre.1, ih1 w (fun x hx => hw x (List.mem_cons_of_mem _ hx)) hpre.2⟩
    · intro hin
      rcases List.infix_cons_iff.mp hin with hpre | hin
      · simp only [List.cons_prefix_cons] at hpre
        obtain ⟨hc, hrest⟩ := hpre
        have h3 : ([117, 115, 114] : List UInt8) <+: cs :=
          ih1 [117, 115, 114] (by decide) hrest
        exact hnot (by rw [← hc]; exact List.cons_prefix_cons.mpr ⟨rfl, h3⟩)
      · exact ih2 hin

/-- C7 (loader neutralization).  For every byte content, `PatchFile` with search `/usr`
and replacement `/xxx` writes a content in which the byte sequence `/usr` does not
occur. -/
theorem PatchFile_usr_gone (input : List UInt8) :
    ∃ output, PatchFile input "/usr" "/xxx" = some output ∧
      ¬ goBytes "/usr" <:+: output := by
  refine ⟨_, PatchFile_usr_xxx input, ?_⟩
  rw [goBytes_usr]
  exact (replace_usr_xxx_clean input.length input (Nat.le_refl _)).2

/-- The `/usr` to `/xxx` substitution keeps the length, and at every offset the output
byte is the input byte unless the offset lies in a span of four bytes that reads
`/usr` in the input and `/xxx` in the output. -/
theorem replace_usr_xxx_frame :
    ∀ (n : Nat) (s : List UInt8), s.length ≤ n →
      (replaceLoop [47, 117, 115, 114] [47, 120, 120, 120] n s).length = s.length ∧
      ∀ i : Nat,
        (replaceLoop [47, 117, 115, 114] [47, 120, 120, 120] n s)[i]? = s[i]? ∨
        ∃ j, j ≤ i ∧ i < j + 4 ∧ (s.drop j).take 4 = [47, 117, 115, 114] ∧
          ((replaceLoop [47, 117, 115, 114] [47, 120, 120, 120] n s).drop j).take 4 =
            [47, 120, 120, 120] := by
  refine replaceLoop_induction [47, 117, 115, 114] [47, 120, 120, 120] (by simp)
    (fun s out => out.length = s.length ∧
      ∀ i : Nat, out[i]? = s[i]? ∨
        ∃ j, j ≤ i ∧ i < j + 4 ∧ (s.drop j).take 4 = [47, 117, 115, 114] ∧
          (out.drop j).take 4 = [47, 120, 120, 120]) ?_ ?_ ?_
  · exact ⟨rfl, fun i => Or.inl rfl⟩
  · rintro t out ⟨hlen, hframe⟩
    refine ⟨by simp [hlen], ?_⟩
    intro i
    by_cases hi : i < 4
    · exact Or.inr ⟨0, Nat.zero_le _, by omega, by simp, by simp⟩
    · obtain ⟨k, rfl⟩ : ∃ k, i = k + 4 := ⟨i - 4, by omega⟩
      rcases hframe k with heq | ⟨j, h1, h2, h3, h4⟩
      · left
        simpa using heq
      · right
        refine ⟨j + 4, by omega, by omega, ?_, ?_⟩
        · simpa using h3
        · simpa using h4
  · rintro c cs out _ ⟨hlen, hframe⟩
    refine ⟨by simp [hlen], ?_⟩
    intro i
    cases i with
    | zero => exact Or.inl (by simp)
    | succ k =>
      rcases hframe k with heq | ⟨j, h1, h2, h3, h4⟩
      · left
        simpa using heq
      · right
        exact ⟨j + 1, by omega, by omega, by simpa using h3, by simpa using h4⟩

/-- C8 (length preservation of the loader patch).  For every byte content, the content
`PatchFile` writes for `/usr` to `/xxx` has the length of the input, and at every
offset `i` the byte is the input byte, unless `i` lies in a replaced occurrence: four
bytes from some offset `j` that read `/usr` in the input and `/xxx` in the output. -/
theorem PatchFile_usr_frame (input : List UInt8) :
    ∃ output, PatchFile input "/usr" "/xxx" = some output ∧
      output.length = input.length ∧
      ∀ i : Nat, output[i]? = input[i]? ∨
        ∃ j, j ≤ i ∧ i < j + 4 ∧ (input.drop j).take 4 = goBytes "/usr" ∧
          (output.drop j).take 4 = goBytes "/xxx" := by
  refine ⟨_, PatchFile_usr_xxx input, ?_⟩
  rw [goBytes_usr, goBytes_xxx]
  exact replace_usr_xxx_frame input.length input (Nat.le_refl _)

/-! ## Splitting and joining -/

theorem splitChars_ne_nil (sep : Char) (p : List Char) : splitChars sep p ≠ [] := by
  cases p with
  | nil => simp [splitChars]
  | cons c cs =>
    rw [splitChars]
    split
    · simp
    · split <;> simp

theorem splitChars_cons_sep (sep : Char) (p : List Char) :
    splitChars sep (sep :: p) = [] :: splitChars sep p := by
  simp [splitChars]

theorem splitChars_append (sep : Char) (x y : List Char) :
    splitChars sep (x ++ sep :: y) = splitChars sep x ++ splitChars sep y := by
  induction x with
  | nil => simp [splitChars]
  | cons c cs ih =>
    by_cases hc : c = sep
    · simp [splitChars, hc, ih]
    · have hne := splitChars_ne_nil sep cs
      rw [List.cons_append, splitChars, if_neg hc, ih, splitChars, if_neg hc]
      cases hsp : splitChars sep cs with
      | nil => exact absurd hsp hne
      | cons w ws => simp

theorem splitChars_of_not_mem (sep : Char) (p : List Char) (hp : sep ∉ p) :
    splitChars sep p = [p] := by
  induction p with
  | nil => rfl
  | cons c cs ih =>
    have hc : c ≠ sep := fun e => hp (by simp [e])
    have hcs : sep ∉ cs := fun e => hp (List.mem_cons_of_mem _ e)
    rw [splitChars, if_neg hc, ih hcs]

theorem not_mem_of_mem_splitChars (sep : Char) (p : List Char) :
    ∀ w ∈ splitChars sep p, sep ∉ w := by
  induction p with
  | nil => intro w hw; simp [splitChars] at hw; simp [hw]
  | cons c cs ih =>
    intro w hw
    by_cases hc : c = sep
    · rw [splitChars, if_pos hc] at hw
      rcases List.mem_cons.mp hw with rfl | hw
      · simp
      · exact ih w hw
    · rw [splitChars, if_neg hc] at hw
      cases hsp : splitChars sep cs with
      | nil => exact absurd hsp (splitChars_ne_nil sep cs)
      | cons v vs =>
        rw [hsp] at hw ih
        rcases List.mem_cons.mp hw with rfl | hw
        · intro hmem
          rcases List.mem_cons.mp hmem with e | e
          · exact hc e.symm
          · exact ih v (List.mem_cons_self _ _) e
        · exact ih w (List.mem_cons_of_mem _ hw)

theorem splitChars_joinChars (sep : Char) (ws : List (List Char)) (hne : ws ≠ [])
    (hws : ∀ w ∈ ws, sep ∉ w) : splitChars sep (joinChars [sep] ws) = ws := by
  induction ws with
  | nil => exact absurd rfl hne
  | cons w ws ih =>
    cases ws with
    | nil => exact splitChars_of_not_mem sep w (hws w (List.mem_cons_self _ _))
    | cons v vs =>
      rw [joinChars, List.append_assoc, List.singleton_append, splitChars_append,
        splitChars_of_not_mem sep w (hws w (List.mem_cons_self _ _)),
        ih (by simp) (fun x hx => hws x (List.mem_cons_of_mem _ hx))]
      rfl

theorem joinChars_head (sep : List Char) (ws : List (List Char)) (c : Char) (w : List Char) :
    ∃ rest, joinChars sep ((c :: w) :: ws) = c :: rest := by
  cases ws with
  | nil => exact ⟨w, rfl⟩
  | cons v vs => exact ⟨_, by rw [joinChars]; rfl⟩

/-! ## The component scan of `filepath.Clean` -/

theorem cleanStep_proper (rooted : Bool) (out : List (List Char)) {c : List Char}
    (hc : properComponent c) : cleanStep rooted out c = c :: out := by
  obtain ⟨h1, h2, h3, _⟩ := hc
  simp [cleanStep, h1, h2, h3]

theorem cleanStep_nil (rooted : Bool) (out : List (List Char)) :
    cleanStep rooted out [] = out := by
  simp [cleanStep]

theorem cleanStep_dotdot_pop (rooted : Bool) (rest : List (List Char)) {top : List Char}
    (htop : top ≠ ['.', '.']) : cleanStep rooted (top :: rest) ['.', '.'] = rest := by
  simp [cleanStep, htop]

theorem foldl_cleanStep_proper (rooted : Bool) (gs : List (List Char)) :
    ∀ out : List (List Char), (∀ c ∈ gs, properComponent c) →
      gs.foldl (cleanStep rooted) out = gs.reverse ++ out := by
  induction gs with
  | nil => intro out _; rfl
  | cons g gs ih =>
    intro out hgs
    rw [List.foldl_cons, cleanStep_proper rooted out (hgs g (List.mem_cons_self _ _)),
      ih _ (fun c hc => hgs c (List.mem_cons_of_mem _ hc))]
    simp

theorem foldl_cleanStep_pop (rooted : Bool) (top : List (List Char)) :
    ∀ out : List (List Char), (∀ c ∈ top, properComponent c) →
      (List.replicate top.length ['.', '.']).foldl (cleanStep rooted) (top ++ out) = out := by
  induction top with
  | nil => intro out _; rfl
  | cons g gs ih =>
    intro out hgs
    rw [List.length_cons, List.replicate_succ, List.foldl_cons, List.cons_append,
      cleanStep_dotdot_pop rooted _ (hgs g (List.mem_cons_self _ _)).2.2.1]
    exact ih out (fun c hc => hgs c (List.mem_cons_of_mem _ hc))

theorem cleanStep_true_proper {out : List (List Char)} {c : List Char}
    (hout : ∀ x ∈ out, properComponent x) (hc : '/' ∉ c) :
    ∀ x ∈ cleanStep true out c, properComponent x := by
  by_cases h1 : c = [] ∨ c = ['.']
  · simpa [cleanStep, h1] using hout
  · by_cases h2 : c = ['.', '.']
    · subst h2
      cases out with
      | nil => simp [cleanStep]
      | cons top rest =>
        rw [cleanStep_dotdot_pop true rest (hout top (List.mem_cons_self _ _)).2.2.1]
        exact fun x hx => hout x (List.mem_cons_of_mem _ hx)
    · have hp : properComponent c := by
        simp only [not_or] at h1
        exact ⟨h1.1, h1.2, h2, hc⟩
      rw [cleanStep_proper true out hp]
      intro x hx
      rcases List.mem_cons.mp hx with rfl | hx
      · exact hp
      · exact hout x hx

theorem foldl_cleanStep_true_proper (comps : List (List Char)) :
    ∀ out : List (List Char), (∀ x ∈ out, properComponent x) → (∀ c ∈ comps, '/' ∉ c) →
      ∀ x ∈ comps.foldl (cleanStep true) out, properComponent x := by
  induction comps with
  | nil => intro out hout _; exact hout
  | cons c cs ih =>
    intro out hout hcs
    rw [List.foldl_cons]
    exact ih _ (cleanStep_true_proper hout (hcs c (List.mem_cons_self _ _)))
      (fun x hx => hcs x (List.mem_cons_of_mem _ hx))

theorem cleanComponents_true_proper (p : List Char) :
    ∀ x ∈ cleanComponents true p, properComponent x := by
  intro x hx
  rw [cleanComponents, List.mem_reverse] at hx
  exact foldl_cleanStep_true_proper _ [] (by simp) (not_mem_of_mem_splitChars '/' p) x hx

theorem cleanChars_rooted (q : List Char) :
    cleanChars ('/' :: q) = '/' :: joinChars ['/'] (cleanComponents true ('/' :: q)) := by
  simp [cleanChars]

/-- Scanning the rendering of a list of proper components puts them all on the stack. -/
theorem foldl_cleanStep_join (rooted : Bool) (gs : List (List Char))
    (hgs : ∀ c ∈ gs, properComponent c) (out : List (List Char)) :
    (splitChars '/' (joinChars ['/'] gs)).foldl (cleanStep rooted) out = gs.reverse ++ out := by
  by_cases hne : gs = []
  · subst hne
    simp [joinChars, splitChars, cleanStep]
  · rw [splitChars_joinChars '/' gs hne (fun w hw => (hgs w hw).2.2.2)]
    exact foldl_cleanStep_proper rooted gs out hgs

/-! ## `filepath.Rel` on rooted paths -/

theorem relElements_rendered (gs : List (List Char)) (hgs : ∀ c ∈ gs, properComponent c) :
    relElements ('/' :: joinChars ['/'] gs) = [] :: gs := by
  by_cases hne : gs = []
  · subst hne; decide
  · have hsplit : splitChars '/' ('/' :: joinChars ['/'] gs) = [] :: gs := by
      rw [splitChars_cons_sep, splitChars_joinChars '/' gs hne (fun w hw => (hgs w hw).2.2.2)]
    rw [relElements, hsplit]
    have hlast : ([] :: gs).getLast? ≠ some [] := by
      intro h
      obtain ⟨g, gs1, rfl⟩ := List.exists_cons_of_ne_nil hne
      rw [List.getLast?_cons_cons] at h
      exact (hgs [] (List.mem_of_getLast?_eq_some h)).1 rfl
    rw [if_neg hlast]

theorem dropCommon_spec (bs : List (List Char)) :
    ∀ ts : List (List Char), ∃ cm,
      bs = cm ++ (dropCommon bs ts).1 ∧ ts = cm ++ (dropCommon bs ts).2 := by
  induction bs with
  | nil => intro ts; exact ⟨[], by simp [dropCommon]⟩
  | cons b bs ih =>
    intro ts
    cases ts with
    | nil => exact ⟨[], by simp [dropCommon]⟩
    | cons t ts =>
      by_cases htb : t = b
      · obtain ⟨cm, h1, h2⟩ := ih ts
        refine ⟨b :: cm, ?_, ?_⟩
        · simp only [dropCommon, htb, if_true, List.cons_append]
          rw [← h1]
        · simp only [dropCommon, htb, if_true, List.cons_append]
          rw [← h2]
      · exact ⟨[], by simp [dropCommon, htb]⟩

theorem foldl_cleanStep_false_dotdot (k : Nat) :
    ∀ j : Nat, (List.replicate k ['.', '.']).foldl (cleanStep false)
      (List.replicate j ['.', '.']) = List.replicate (j + k) ['.', '.'] := by
  induction k with
  | zero => intro j; rfl
  | succ k ih =>
    intro j
    rw [List.replicate_succ, List.foldl_cons]
    have hstep : cleanStep false (List.replicate j ['.', '.']) ['.', '.'] =
        List.replicate (j + 1) ['.', '.'] := by
      cases j with
      | zero => simp [cleanStep]
      | succ j => simp [cleanStep, List.replicate_succ]
    rw [hstep, ih (j + 1)]
    congr 1
    omega

theorem relative_free (k : Nat) (ts : List (List Char)) (hts : ∀ c ∈ ts, properComponent c) :
    ∀ w ∈ List.replicate k ['.', '.'] ++ ts, '/' ∉ w := by
  intro w hw
  rcases List.mem_append.mp hw with hw | hw
  · rw [(List.mem_replicate.mp hw).2]; decide
  · exact (hts w hw).2.2.2

/-- A relative path made of `..` elements followed by proper components is clean. -/
theorem cleanChars_relative (k : Nat) (ts : List (List Char))
    (hts : ∀ c ∈ ts, properComponent c) (hne : List.replicate k ['.', '.'] ++ ts ≠ []) :
    cleanChars (joinChars ['/'] (List.replicate k ['.', '.'] ++ ts)) =
      joinChars ['/'] (List.replicate k ['.', '.'] ++ ts) := by
  have hfree := relative_free k ts hts
  have hcomp : cleanComponents false (joinChars ['/'] (List.replicate k ['.', '.'] ++ ts)) =
      List.replicate k ['.', '.'] ++ ts := by
    rw [cleanComponents, splitChars_joinChars '/' _ hne hfree, List.foldl_append]
    have h0 := foldl_cleanStep_false_dotdot k 0
    simp only [List.replicate_zero, Nat.zero_add] at h0
    rw [h0, foldl_cleanStep_proper false ts _ hts]
    simp
  obtain ⟨c, w, rest, hR, hc⟩ : ∃ c w rest,
      List.replicate k ['.', '.'] ++ ts = (c :: w) :: rest ∧ c ≠ '/' := by
    cases k with
    | zero =>
      cases ts with
      | nil => exact absurd rfl hne
      | cons t ts =>
        have ht := hts t (List.mem_cons_self _ _)
        obtain ⟨c, w, rfl⟩ := List.exists_cons_of_ne_nil ht.1
        exact ⟨c, w, ts, rfl, fun e => ht.2.2.2 (by simp [e])⟩
    | succ k => exact ⟨'.', ['.'], List.replicate k ['.', '.'] ++ ts, rfl, by decide⟩
  obtain ⟨tail, htail⟩ := joinChars_head ['/'] rest c w
  have hjoin : joinChars ['/'] (List.replicate k ['.', '.'] ++ ts) = c :: tail := by
    rw [hR, htail]
  have hcomp1 := hcomp
  rw [hjoin] at hcomp1
  rw [hjoin, cleanChars]
  simp only [hc, if_false, hcomp1, hne]
  exact hjoin

/-- Results of `filepath.Rel` on unrooted paths: no relative path leads from `../..` to
`..`, from `..` to `a`, or between a rooted and an unrooted path. -/
theorem Rel_unrooted_examples :
    Rel "../.." ".." = StrResult.err "Rel: can't make .. relative to ../.." ∧
    Rel ".." "a" = StrResult.err "Rel: can't make a relative to .." ∧
    Rel "a" "/a" = StrResult.err "Rel: can't make /a relative to a" ∧
    Rel "a/b/c/d" "a/b" = StrResult.ok "../.." ∧
    Rel "a/b" "a/b/c/d" = StrResult.ok "c/d" ∧
    Rel "../../a/b" "../../a/b/c/d" = StrResult.ok "c/d" ∧
    Rel "a/b" "c/d" = StrResult.ok "../../c/d" := by
  decide

/-- For rooted paths `filepath.Rel` succeeds, and joining its cleaned result onto the
base and cleaning gives the cleaned target. -/
theorem relChars_rooted (b t : List Char) :
    ∃ r, relChars ('/' :: b) ('/' :: t) = some r ∧
      cleanChars (('/' :: b) ++ '/' :: cleanChars r) = cleanChars ('/' :: t) := by
  have hB := cleanComponents_true_proper ('/' :: b)
  have hT := cleanComponents_true_proper ('/' :: t)
  have hstack : (splitChars '/' ('/' :: b)).foldl (cleanStep true) [] =
      (cleanComponents true ('/' :: b)).reverse := by
    rw [cleanComponents, List.reverse_reverse]
  have hcb := cleanChars_rooted b
  have hct := cleanChars_rooted t
  generalize cleanComponents true ('/' :: b) = B at hB hstack hcb
  generalize cleanComponents true ('/' :: t) = T at hT hct
  have hjoin : ∀ r : List Char, cleanChars (('/' :: b) ++ '/' :: r) =
      '/' :: joinChars ['/'] ((splitChars '/' r).foldl (cleanStep true) B.reverse).reverse := by
    intro r
    rw [List.cons_append, cleanChars_rooted, cleanComponents, ← List.cons_append,
      splitChars_append, List.foldl_append, hstack]
  by_cases heq : ('/' :: joinChars ['/'] T) = ('/' :: joinChars ['/'] B)
  · refine ⟨['.'], ?_, ?_⟩
    · simp only [relChars, hcb, hct, heq, if_true]
    · have hdot : cleanChars ['.'] = ['.'] := by decide
      rw [hdot, hjoin, hct, heq]
      simp [splitChars, cleanStep]
  · obtain ⟨cm, h1, h2⟩ := dropCommon_spec B T
    have hdc : dropCommon ([] :: B) ([] :: T) = dropCommon B T := by simp [dropCommon]
    generalize hB1 : (dropCommon B T).1 = B1 at h1
    generalize hT1 : (dropCommon B T).2 = T1 at h2
    have hB1p : ∀ c ∈ B1, properComponent c := fun c hc => hB c (by rw [h1]; simp [hc])
    have hT1p : ∀ c ∈ T1, properComponent c := fun c hc => hT c (by rw [h2]; simp [hc])
    have hcmp : ∀ c ∈ cm, properComponent c := fun c hc => hB c (by rw [h1]; simp [hc])
    have hhead : B1.head? ≠ some ['.', '.'] := by
      intro h
      cases B1 with
      | nil => simp at h
      | cons x xs =>
        simp only [List.head?_cons, Option.some.injEq] at h
        exact (hB1p x (List.mem_cons_self _ _)).2.2.1 h
    have hne : List.replicate B1.length ['.', '.'] ++ T1 ≠ [] := by
      intro h
      have hb : B1 = [] := by
        cases B1 with
        | nil => rfl
        | cons x xs => simp [List.replicate_succ] at h
      subst hb
      have ht : T1 = [] := by simpa using h
      subst ht
      exact heq (by rw [h1, h2])
    refine ⟨joinChars ['/'] (List.replicate B1.length ['.', '.'] ++ T1), ?_, ?_⟩
    · have hbase : (if ('/' :: joinChars ['/'] B) = ['.'] then []
          else '/' :: joinChars ['/'] B) = '/' :: joinChars ['/'] B := by simp
      simp only [relChars, hcb, hct, heq, if_false, hbase]
      simp only [relElements_rendered B hB, relElements_rendered T hT, hdc, hB1, hT1,
        List.map_const']
      simp [hhead]
    · rw [cleanChars_relative B1.length T1 hT1p hne, hjoin,
        splitChars_joinChars '/' _ hne (relative_free B1.length T1 hT1p), List.foldl_append]
      have hpop : (List.replicate B1.length ['.', '.']).foldl (cleanStep true) B.reverse =
          cm.reverse := by
        have := foldl_cleanStep_pop true B1.reverse cm.reverse
          (fun c hc => hB1p c (List.mem_reverse.mp hc))
        rw [List.length_reverse] at this
        rw [h1, List.reverse_append]
        exact this
      rw [hpop, foldl_cleanStep_proper true T1 _ hT1p, hct, h2]
      simp

/-! ## Rooted paths -/

theorem hasPrefix_slash (s : String) :
    HasPrefix s "/" = true ↔ ∃ q, s.data = '/' :: q := by
  have hd : ("/" : String).data = ['/'] := rfl
  rw [HasPrefix, hd]
  cases s.data with
  | nil => simp [List.isPrefixOf]
  | cons c cs =>
    simp only [List.isPrefixOf, Bool.and_true, beq_iff_eq, List.cons.injEq, exists_and_left,
      exists_eq', and_true]
    exact eq_comm

theorem uptoLastSlash_rooted (q : List Char) : ∃ q1, uptoLastSlash ('/' :: q) = '/' :: q1 := by
  have hpre : uptoLastSlash ('/' :: q) <+: '/' :: q := by
    rw [uptoLastSlash, ← List.reverse_suffix, List.reverse_reverse]
    exact List.dropWhile_suffix _
  have hne : uptoLastSlash ('/' :: q) ≠ [] := by
    intro h
    rw [uptoLastSlash, List.reverse_eq_nil_iff, List.dropWhile_eq_nil_iff] at h
    have := h '/' (by simp)
    simp at this
  obtain ⟨c, q1, hq⟩ := List.exists_cons_of_ne_nil hne
  rw [hq] at hpre ⊢
  rw [List.cons_prefix_cons] at hpre
  exact ⟨q1, by rw [hpre.1]⟩

theorem Dir_rooted {p : String} (hp : ∃ q, p.data = '/' :: q) : ∃ q, (Dir p).data = '/' :: q := by
  obtain ⟨q, hq⟩ := hp
  obtain ⟨q1, hq1⟩ := uptoLastSlash_rooted q
  exact ⟨_, by rw [Dir, hq, hq1, cleanChars_rooted]⟩

theorem rooted_of_hasPrefix {s p : String} (hp : ∃ q, p.data = '/' :: q)
    (hs : HasPrefix s p = true) : ∃ q, s.data = '/' :: q := by
  obtain ⟨q, hq⟩ := hp
  obtain ⟨t, ht⟩ := List.isPrefixOf_iff_prefix.mp hs
  exact ⟨q ++ t, by rw [← ht, hq]; rfl⟩

theorem pathInAppDir_rooted (appdir : AppDir) (path : String)
    (habs : ∃ q, appdir.Path.data = '/' :: q) :
    ∃ q, (pathInAppDir appdir path).data = '/' :: q := by
  unfold pathInAppDir
  split
  · obtain ⟨q, hq⟩ := habs
    refine ⟨joinChars ['/'] (cleanComponents true ('/' :: (q ++ ['/'] ++ path.data))), ?_⟩
    have hsl : ("/" : String).data = ['/'] := rfl
    simp only [Clean, String.data_append, hq, hsl, List.cons_append, cleanChars_rooted]
  · next h => exact rooted_of_hasPrefix habs (by simpa using h)

theorem mirroredDir_rooted (appdir : AppDir) (lib : String)
    (habs : ∃ q, appdir.Path.data = '/' :: q) :
    ∃ q, (mirroredDir appdir lib).data = '/' :: q := by
  unfold mirroredDir
  split
  · obtain ⟨q, hq⟩ := habs
    exact ⟨q ++ lib.data, by simp only [String.data_append, hq, List.cons_append]⟩
  · next h => exact rooted_of_hasPrefix habs (by simpa using h)

theorem mem_libraryLocationsInAppDir (appdir : AppDir) (L : List String) (m : String) :
    m ∈ libraryLocationsInAppDir appdir L ↔ ∃ d ∈ L, mirroredDir appdir d = m := by
  have h : libraryLocationsInAppDir appdir L =
      (L.map (mirroredDir appdir)).foldl AppendIfMissing [] := by
    simp [libraryLocationsInAppDir, List.foldl_map]
  rw [h, mem_foldl_AppendIfMissing]
  simp

/-- C5, counterexample.  AppDir `/app`, object `/app/usr/bin/x` (base name `x`), library
location `/`: the only token is `$ORIGIN/../..`, which joined onto `/app/usr/bin` and
normalised is `/app`, while the mirrored directory, AppDir path + `/`, is `/app/`.
With an AppDir path that is not absolute the relative path may not exist at all: for the
AppDir `.`, the object `../lib/x.so` and the library location `/usr/lib`, `filepath.Rel`
fails, the only token is `$ORIGIN/.`, and it leads to `../lib`, not to `./usr/lib`. -/
theorem rpath_coverage_fails :
    (HasPrefix (Base (pathInAppDir ⟨"/app"⟩ "/app/usr/bin/x")) "ld-linux" = false ∧
      mirroredDir ⟨"/app"⟩ "/" = "/app/" ∧
      ¬ ∃ r, "$ORIGIN/" ++ r ∈
            newRpathStrings ⟨"/app"⟩ (libraryLocationsInAppDir ⟨"/app"⟩ ["/"]) "/app/usr/bin/x" ∧
          Clean (Dir (pathInAppDir ⟨"/app"⟩ "/app/usr/bin/x") ++ "/" ++ r) =
            mirroredDir ⟨"/app"⟩ "/") ∧
    (HasPrefix (Base (pathInAppDir ⟨"."⟩ "../lib/x.so")) "ld-linux" = false ∧
      mirroredDir ⟨"."⟩ "/usr/lib" = "./usr/lib" ∧
      Rel (Dir (pathInAppDir ⟨"."⟩ "../lib/x.so")) "./usr/lib" =
        StrResult.err "Rel: can't make ./usr/lib relative to ../lib" ∧
      newRpathStrings ⟨"."⟩ (libraryLocationsInAppDir ⟨"."⟩ ["/usr/lib"]) "../lib/x.so" =
        ["$ORIGIN/."] ∧
      Clean (Dir (pathInAppDir ⟨"."⟩ "../lib/x.so") ++ "/" ++ ".") = "../lib" ∧
      Clean (mirroredDir ⟨"."⟩ "/usr/lib") = "usr/lib") := by
  refine ⟨⟨by decide, by decide, ?_⟩, by decide⟩
  rintro ⟨r, hmem, heq⟩
  have htok : newRpathStrings ⟨"/app"⟩ (libraryLocationsInAppDir ⟨"/app"⟩ ["/"])
      "/app/usr/bin/x" = ["$ORIGIN/../.."] := by decide
  rw [htok, List.mem_singleton] at hmem
  have hdata := congrArg String.data hmem
  rw [String.data_append] at hdata
  have hsplit : ("$ORIGIN/../.." : String).data =
      ("$ORIGIN/" : String).data ++ ("../.." : String).data := by decide
  rw [hsplit] at hdata
  have hr : r.data = ("../.." : String).data := List.append_cancel_left hdata
  have hr2 : r = "../.." := String.ext hr
  subst hr2
  revert heq
  decide

/-- C5, amended.  For an AppDir whose path is absolute, every object path and every
directory `d` of `libraryLocations`: the list of tokens joined into the rpath string of
`patchRpathsInElf` holds a token `$ORIGIN/r` such that `r` joined onto the directory of
the object's path inside the AppDir and normalised is the normalised mirrored directory
of `d`.  The rpath string is what `patchelf --set-rpath` receives for an existing file
whose base name does not begin with `ld-linux`. -/
theorem rpath_covers (appdir : AppDir) (L : List String) (obj d : String)
    (habs : HasPrefix appdir.Path "/" = true) (hd : d ∈ L) :
    (∀ h : Host, HasPrefix (Base (pathInAppDir appdir obj)) "ld-linux" = false →
      h.pathExists (pathInAppDir appdir obj) = true →
      patchRpathsInElf h appdir (libraryLocationsInAppDir appdir L) obj =
        some (Join (newRpathStrings appdir (libraryLocationsInAppDir appdir L) obj) ":",
          pathInAppDir appdir obj)) ∧
    ∃ r, "$ORIGIN/" ++ r ∈ newRpathStrings appdir (libraryLocationsInAppDir appdir L) obj ∧
      Clean (Dir (pathInAppDir appdir obj) ++ "/" ++ r) = Clean (mirroredDir appdir d) := by
  refine ⟨?_, ?_⟩
  · intro h h1 h2
    simp [patchRpathsInElf, h1, h2, newRpathStringForElf]
  · have habs1 := (hasPrefix_slash appdir.Path).mp habs
    obtain ⟨bq, hb⟩ := Dir_rooted (pathInAppDir_rooted appdir obj habs1)
    obtain ⟨tq, ht⟩ := mirroredDir_rooted appdir d habs1
    obtain ⟨rc, hrel, hclean⟩ := relChars_rooted bq tq
    have hRel : Rel (Dir (pathInAppDir appdir obj)) (mirroredDir appdir d) =
        StrResult.ok (String.mk rc) := by
      simp only [Rel, hb, ht, hrel]
    refine ⟨Clean (String.mk rc), ?_, ?_⟩
    · rw [newRpathStrings, List.mem_map]
      refine ⟨mirroredDir appdir d,
        (mem_libraryLocationsInAppDir appdir L _).mpr ⟨d, hd, rfl⟩, ?_⟩
      simp only [hRel]
    · have hsl : ("/" : String).data = ['/'] := rfl
      simp only [Clean, String.data_append, hb, ht, hsl]
      rw [List.append_assoc, List.singleton_append, hclean]

/-- Witness for `rpath_covers`: AppDir `/app`, the host library `/usr/lib/libc.so.6`,
and the library locations `/usr/lib` and `/`. -/
theorem rpath_covers_witness :
    (∀ h : Host, HasPrefix (Base (pathInAppDir ⟨"/app"⟩ "/usr/lib/libc.so.6")) "ld-linux" = false →
      h.pathExists (pathInAppDir ⟨"/app"⟩ "/usr/lib/libc.so.6") = true →
      patchRpathsInElf h ⟨"/app"⟩ (libraryLocationsInAppDir ⟨"/app"⟩ ["/usr/lib", "/"])
          "/usr/lib/libc.so.6" =
        some (Join (newRpathStrings ⟨"/app"⟩ (libraryLocationsInAppDir ⟨"/app"⟩ ["/usr/lib", "/"])
          "/usr/lib/libc.so.6") ":", pathInAppDir ⟨"/app"⟩ "/usr/lib/libc.so.6")) ∧
    ∃ r, "$ORIGIN/" ++ r ∈ newRpathStrings ⟨"/app"⟩
          (libraryLocationsInAppDir ⟨"/app"⟩ ["/usr/lib", "/"]) "/usr/lib/libc.so.6" ∧
      Clean (Dir (pathInAppDir ⟨"/app"⟩ "/usr/lib/libc.so.6") ++ "/" ++ r) =
        Clean (mirroredDir ⟨"/app"⟩ "/") :=
  rpath_covers ⟨"/app"⟩ ["/usr/lib", "/"] "/usr/lib/libc.so.6" "/" (by decide) (by decide)

/-! ## Discovery of binary objects -/

/-- The loop of the walk only keeps regular files that pass the magic test. -/
theorem walk_fold_mem (h : Host) (entries : List WalkEntry) :
    ∀ acc : List String,
      ∀ p ∈ entries.foldl
          (fun acc e => if e.regular && h.elfMagic e.path then AppendIfMissing acc e.path else acc)
          acc,
        p ∈ acc ∨ ∃ e ∈ entries, e.path = p ∧ e.regular = true ∧ h.elfMagic p = true := by
  induction entries with
  | nil => intro acc p hp; exact Or.inl hp
  | cons e es ih =>
    intro acc p hp
    rw [List.foldl_cons] at hp
    rcases ih _ p hp with hacc | ⟨e1, he1, hrest⟩
    · by_cases hc : (e.regular && h.elfMagic e.path) = true
      · rw [if_pos hc] at hacc
        obtain ⟨x, hx, _⟩ := extends_AppendIfMissing acc e.path
        rw [hx] at hacc
        rcases List.mem_append.mp hacc with hm | hm
        · exact Or.inl hm
        · by_cases hmem : e.path ∈ acc
          · rw [AppendIfMissing_of_mem hmem] at hx
            have hnil : x = [] := by simpa using hx
            rw [hnil] at hm
            exact absurd hm (List.not_mem_nil p)
          · rw [AppendIfMissing_of_not_mem hmem] at hx
            have hxe : x = [e.path] := (List.append_cancel_left hx).symm
            rw [hxe, List.mem_singleton] at hm
            simp only [Bool.and_eq_true] at hc
            exact Or.inr ⟨e, List.mem_cons_self _ _, hm.symm, hc.1, by rw [hm]; exact hc.2⟩
      · rw [if_neg hc] at hacc
        exact Or.inl hacc
    · exact Or.inr ⟨e1, List.mem_cons_of_mem _ he1, hrest⟩

/-- C11, counterexample.  `/etc/hostname` is a file that does not pass the magic test
and `/nowhere` does not exist; neither is a directory, and
`findAllExecutablesAndLibraries` returns each of them as its only result. -/
theorem findAll_returns_untested_file :
    hostPlainFile.isDirectory "/etc/hostname" = false ∧
    hostPlainFile.elfMagic "/etc/hostname" = false ∧
    findAllExecutablesAndLibraries hostPlainFile "/etc/hostname" = ["/etc/hostname"] ∧
    hostPlainFile.pathExists "/nowhere" = false ∧
    findAllExecutablesAndLibraries hostPlainFile "/nowhere" = ["/nowhere"] := by
  decide

/-- C11, amended.  When the root is a directory, every path that
`findAllExecutablesAndLibraries` returns was visited by the walk as a regular file and
passes the magic test; when the root is not a directory (a single file or a path that
does not exist), the result is the root itself and nothing is tested. -/
theorem findAll_directory_or_root (h : Host) (root : String) :
    (h.isDirectory root = true →
      ∀ p ∈ findAllExecutablesAndLibraries h root,
        ∃ e ∈ h.walk root, e.path = p ∧ e.regular = true ∧ h.elfMagic p = true) ∧
    (h.isDirectory root = false → findAllExecutablesAndLibraries h root = [root]) := by
  constructor
  · intro hdir p hp
    simp only [findAllExecutablesAndLibraries, hdir, bne_self_eq_false, Bool.false_eq_true,
      if_false] at hp
    rcases walk_fold_mem h (h.walk root) [] p hp with hnil | hres
    · exact absurd hnil (List.not_mem_nil p)
    · exact hres
  · intro hdir
    simp [findAllExecutablesAndLibraries, hdir]

/-! ## `ScanFile`, `getQtPrfxpath` and the Qt step at failing inputs -/

/-- C16, the code at the failing input.  In the bytes `aab` the sequence `ab` occurs at
offset 1, and `ScanFile` returns `-1`: after the first `a` the second `a` does not
match `b`, the count of matched bytes is reset, and that second `a` is not looked at
again. -/
theorem ScanFile_misses_occurrence :
    ((goBytes "aab").drop 1).take 2 = goBytes "ab" ∧
    (ScanFile ⟨goBytes "aab", 0⟩ (goBytes "ab")).1 = -1 := by
  decide

/-- C13, the code at the failing input.  In the content `qqt_prfxpath=/opt/qt5` followed
by a NUL byte the marker occurs at offset 1 and ends at offset 13, the next NUL byte is
at offset 21, and the bytes between read `/opt/qt5`.  `ScanFile` misses the marker and
returns `-1`, and `getQtPrfxpath` returns `h=/opt/qt5`, the bytes from offset 11.  (With
a NUL byte in place of the first `q` it returns `/opt/qt5`.) -/
theorem getQtPrfxpath_after_repeated_q :
    ((goBytes "qqt_prfxpath=/opt/qt5" ++ [0]).drop 1).take 12 = goBytes "qt_prfxpath=" ∧
    (((goBytes "qqt_prfxpath=/opt/qt5" ++ [0]).drop 13).take 8 = goBytes "/opt/qt5" ∧
      (goBytes "qqt_prfxpath=/opt/qt5" ++ [0])[21]? = some 0) ∧
    (ScanFile ⟨goBytes "qqt_prfxpath=/opt/qt5" ++ [0], 0⟩ (goBytes "qt_prfxpath=")).1 = -1 ∧
    getQtPrfxpath ⟨goBytes "qqt_prfxpath=/opt/qt5" ++ [0], 0⟩ = some "h=/opt/qt5" ∧
    getQtPrfxpath ⟨[0] ++ goBytes "qt_prfxpath=/opt/qt5" ++ [0], 0⟩ = some "/opt/qt5" := by
  decide

/-- C18, the code at the failing input.  The content `0123456789ab/opt/junk` followed by
a NUL byte holds no `qt_prfxpath=` (it has no byte `q`); `ScanFile` returns `-1`, the
offset becomes `-1 + 12`, and `getQtPrfxpath` returns the non-empty `b/opt/junk`. -/
theorem getQtPrfxpath_without_marker :
    (113 : UInt8) ∉ goBytes "0123456789ab/opt/junk" ++ [0] ∧
    ¬ goBytes "qt_prfxpath=" <:+: goBytes "0123456789ab/opt/junk" ++ [0] ∧
    (ScanFile ⟨goBytes "0123456789ab/opt/junk" ++ [0], 0⟩ (goBytes "qt_prfxpath=")).1 = -1 ∧
    getQtPrfxpath ⟨goBytes "0123456789ab/opt/junk" ++ [0], 0⟩ = some "b/opt/junk" := by
  refine ⟨by decide, ?_, by decide, by decide⟩
  intro hin
  have hq : (113 : UInt8) ∈ goBytes "qt_prfxpath=" := by decide
  have hsub := List.IsInfix.subset hin hq
  exact absurd hsub (by decide)

/-- Whatever `containsString` is: once it reports `libQtCore.so.4`, the Qt step does
nothing, whether or not it reports `libQt5Core.so.5`. -/
theorem deployQt_of_qt4 (h : Host) (containsString : List String → String → Bool)
    (fuel : Nat) (s : State) (h4 : containsString s.allELFs "libQtCore.so.4" = true) :
    qtVersionDetected containsString s.allELFs = 4 ∧
    deployQt h containsString fuel s = Outcome.returned none s := by
  have hv : qtVersionDetected containsString s.allELFs = 4 := by
    simp [qtVersionDetected, h4]
  refine ⟨hv, ?_⟩
  simp [deployQt, hv, handleQt]

/-- C17, the code at the failing input.  On `hostQt` with both `libQt5Core.so.5` and
`libQtCore.so.4` in `allELFs`, Qt 5 is detected, the detected version ends as 4, and the
Qt step returns without having added anything: `libqxcb.so` is not in `allELFs`.  With
`libQt5Core.so.5` alone the same step adds `/opt/qt5/plugins/platforms/libqxcb.so`. -/
theorem deployQt_skips_qt5_when_qt4 :
    markerPresent ["/usr/lib/libQt5Core.so.5", "/usr/lib/libQtCore.so.4"] "libQt5Core.so.5"
      = true ∧
    qtVersionDetected markerPresent ["/usr/lib/libQt5Core.so.5", "/usr/lib/libQtCore.so.4"]
      = 4 ∧
    deployQt hostQt markerPresent 5
        ⟨["/usr/lib/libQt5Core.so.5", "/usr/lib/libQtCore.so.4"], ["/usr/lib"]⟩
      = Outcome.returned none
          ⟨["/usr/lib/libQt5Core.so.5", "/usr/lib/libQtCore.so.4"], ["/usr/lib"]⟩ ∧
    deployQt hostQt markerPresent 5 ⟨["/usr/lib/libQt5Core.so.5"], ["/usr/lib"]⟩
      = Outcome.returned none
          ⟨["/usr/lib/libQt5Core.so.5", "/opt/qt5/plugins/platforms/libqxcb.so"],
            ["/usr/lib"] ++ locs.filter (fun d => d ≠ "/usr/lib")
              ++ ["/opt/qt5/plugins/platforms"]⟩ := by
  decide

/-! ## Deleting a directory from `loaders.cache` -/

theorem goBytes_append_slash (D : String) : goBytes (D ++ "/") = goBytes D ++ [47] := by
  show (D ++ "/").data.flatMap String.utf8EncodeChar =
    D.data.flatMap String.utf8EncodeChar ++ [47]
  rw [String.data_append, List.flatMap_append]
  rfl

theorem goBytes_empty : goBytes "" = [] := by decide

theorem prefix_intercalate_head {α : Type} (sep u : List α) (rest : List (List α)) :
    u <+: List.intercalate sep (u :: rest) := by
  cases rest with
  | nil => simp [List.intercalate]
  | cons b l => exact ⟨sep ++ List.intercalate sep (b :: l), by simp [List.intercalate]⟩

theorem intercalate_cons_head {α : Type} (sep u : List α) (c : α) (rest : List (List α)) :
    List.intercalate sep ((c :: u) :: rest) = c :: List.intercalate sep (u :: rest) := by
  cases rest with
  | nil => simp [List.intercalate]
  | cons b l => simp [List.intercalate]

/-- Deleting with the replacement loop: the input is the stretches that are kept with
`old` between them, the output is the stretches one after the other, and `old` occurs
in none of the stretches. -/
theorem replaceLoop_delete {α : Type} [DecidableEq α] (old : List α) (hold : old ≠ []) :
    ∀ (n : Nat) (s : List α), s.length ≤ n →
      ∃ us : List (List α), us ≠ [] ∧ s = List.intercalate old us ∧
        replaceLoop old [] n s = us.flatten ∧ ∀ u ∈ us, ¬ old <:+: u := by
  refine replaceLoop_induction old [] hold
    (fun s out => ∃ us : List (List α), us ≠ [] ∧ s = List.intercalate old us ∧
      out = us.flatten ∧ ∀ u ∈ us, ¬ old <:+: u) ?_ ?_ ?_
  · exact ⟨[[]], by simp, by simp [List.intercalate], by simp, by simpa using hold⟩
  · rintro t out ⟨us, hne, ht, hout, hfree⟩
    obtain ⟨b, l, rfl⟩ := List.exists_cons_of_ne_nil hne
    refine ⟨[] :: b :: l, by simp, ?_, by simp [hout], ?_⟩
    · rw [ht]; simp [List.intercalate]
    · intro u hu
      rcases List.mem_cons.mp hu with rfl | hu
      · simpa using hold
      · exact hfree u hu
  · rintro c cs out hnot ⟨us, hne, hcs, hout, hfree⟩
    obtain ⟨u0, rest, rfl⟩ := List.exists_cons_of_ne_nil hne
    refine ⟨(c :: u0) :: rest, by simp, ?_, by simp [hout], ?_⟩
    · rw [intercalate_cons_head, ← hcs]
    · intro u hu
      rcases List.mem_cons.mp hu with rfl | hu
      · intro hin
        rcases List.infix_cons_iff.mp hin with hpre | hin
        · have hu0 : c :: u0 <+: c :: cs := by
            rw [List.cons_prefix_cons]
            exact ⟨rfl, by rw [hcs]; exact prefix_intercalate_head old u0 rest⟩
          exact hnot (List.IsPrefix.trans hpre hu0)
        · exact hfree u0 (List.mem_cons_self _ _) hin
      · exact hfree u (List.mem_cons_of_mem _ hu)

/-- C14, counterexample.  Loader directory `/usr/lib/loaders`: in the content
`//usr/lib/loaders/usr/lib/loaders/libpixbufloader-png.so` the one occurrence of
`/usr/lib/loaders/` starts at offset 1; with it deleted the content written reads
`/usr/lib/loaders/libpixbufloader-png.so`, which begins with `/usr/lib/loaders/`. -/
theorem PatchFile_deletion_leaves_directory :
    PatchFile (goBytes "//usr/lib/loaders/usr/lib/loaders/libpixbufloader-png.so")
        ("/usr/lib/loaders" ++ "/") ""
      = some (goBytes ("/usr/lib/loaders" ++ "/") ++ goBytes "libpixbufloader-png.so") ∧
    goBytes ("/usr/lib/loaders" ++ "/") <:+:
      goBytes ("/usr/lib/loaders" ++ "/") ++ goBytes "libpixbufloader-png.so" := by
  refine ⟨by decide, ?_⟩
  exact List.infix_append' [] _ _

/-- C14, amended.  For every content of `loaders.cache` and every loader directory `D`,
`PatchFile(cache, D + "/", "")` writes the content with the occurrences of `D/` met in
one scan from the left deleted: the input is the kept stretches with `D/` between
them, the output is these stretches one after the other, and `D/` occurs in none of
the stretches (in the output it can only occur across a place where it was deleted). -/
theorem PatchFile_deletes_in_one_pass (input : List UInt8) (D : String) :
    ∃ output stretches, PatchFile input (D ++ "/") "" = some output ∧
      stretches ≠ [] ∧
      input = List.intercalate (goBytes (D ++ "/")) stretches ∧
      output = stretches.flatten ∧
      ∀ u ∈ stretches, ¬ goBytes (D ++ "/") <:+: u := by
  have hne : goBytes (D ++ "/") ≠ [] := by rw [goBytes_append_slash]; simp
  obtain ⟨us, h1, h2, h3, h4⟩ :=
    replaceLoop_delete (goBytes (D ++ "/")) hne input.length input (Nat.le_refl _)
  refine ⟨us.flatten, us, ?_, h1, h2, rfl, h4⟩
  simp only [PatchFile, bytesReplaceAll, goBytes_empty, hne, if_false, h3]

/-! ## The `/usr` to `././` substitution -/

/-- Where `old` does not occur the replacement loop copies the input. -/
theorem replaceLoop_of_not_infix {α : Type} [DecidableEq α] (old new : List α)
    (hold : old ≠ []) :
    ∀ (n : Nat) (s : List α), s.length ≤ n → ¬ old <:+: s → replaceLoop old new n s = s := by
  refine replaceLoop_induction old new hold (fun s out => ¬ old <:+: s → out = s) ?_ ?_ ?_
  · intro _; rfl
  · intro t out _ hno
    exact absurd (List.infix_append' [] old t) (by simpa using hno)
  · intro c cs out _ ih hno
    rw [ih (fun hin => hno (List.infix_cons hin))]

theorem goBytes_dots : goBytes "././" = [46, 47, 46, 47] := by decide

theorem goBytes_usrusr : goBytes "/usrusr" = [47, 117, 115, 114, 117, 115, 114] := by decide

theorem PatchFile_usr_dots (input : List UInt8) :
    PatchFile input "/usr" "././" =
      some (replaceLoop [47, 117, 115, 114] [46, 47, 46, 47] input.length input) := by
  simp [PatchFile, bytesReplaceAll, goBytes_usr, goBytes_dots]

/-- In the output of the `/usr` to `././` substitution, a run of bytes without `.` at
the start of the output is at the start of the input too, and `/usr` does not occur
unless the input holds `/usr` directly followed by `usr`. -/
theorem replace_usr_dots_clean :
    ∀ (n : Nat) (s : List UInt8), s.length ≤ n →
      (∀ w : List UInt8, (∀ b ∈ w, b ≠ 46) →
        w <+: replaceLoop [47, 117, 115, 114] [46, 47, 46, 47] n s → w <+: s) ∧
      (¬ [47, 117, 115, 114, 117, 115, 114] <:+: s →
        ¬ [47, 117, 115, 114] <:+: replaceLoop [47, 117, 115, 114] [46, 47, 46, 47] n s) := by
  refine replaceLoop_induction [47, 117, 115, 114] [46, 47, 46, 47] (by simp)
    (fun s out => (∀ w : List UInt8, (∀ b ∈ w, b ≠ 46) → w <+: out → w <+: s) ∧
      (¬ [47, 117, 115, 114, 117, 115, 114] <:+: s → ¬ [47, 117, 115, 114] <:+: out))
    ?_ ?_ ?_
  · refine ⟨fun w _ hw => hw, ?_⟩
    intro _; simp
  · rintro t out ⟨ih1, ih2⟩
    refine ⟨?_, ?_⟩
    · intro w hw hpre
      cases w with
      | nil => exact List.nil_prefix
      | cons b w =>
        have hb : b ≠ 46 := hw b (List.mem_cons_self _ _)
        have : b = 46 := by
          have := hpre
          simp only [List.cons_append, List.cons_prefix_cons] at this
          exact this.1
        exact absurd this hb
    · intro hno hin
      simp only [List.cons_append, List.nil_append, List.infix_cons_iff,
        List.cons_prefix_cons] at hin
      rcases hin with hin | hin | hin | hin | hin
      · exact absurd hin.1 (by decide)
      · exact absurd hin.2.1 (by decide)
      · exact absurd hin.1 (by decide)
      · have h3 : ([117, 115, 114] : List UInt8) <+: t := ih1 [117, 115, 114] (by decide) hin.2
        obtain ⟨r, hr⟩ := h3
        apply hno
        refine ⟨[], r, ?_⟩
        rw [← hr]; simp
      · exact ih2 (fun h7 => hno (List.IsInfix.trans h7
          (List.suffix_append [47, 117, 115, 114] t).isInfix)) hin
  · rintro c cs out hnot ⟨ih1, ih2⟩
    refine ⟨?_, ?_⟩
    · intro w hw hpre
      cases w with
      | nil => exact List.nil_prefix
      | cons b w =>
        simp only [List.cons_prefix_cons] at hpre ⊢
        exact ⟨hpre.1, ih1 w (fun x hx => hw x (List.mem_cons_of_mem _ hx)) hpre.2⟩
    · intro hno hin
      rcases List.infix_cons_iff.mp hin with hpre | hin
      · simp only [List.cons_prefix_cons] at hpre
        obtain ⟨hc, hrest⟩ := hpre
        have h3 : ([117, 115, 114] : List UInt8) <+: cs :=
          ih1 [117, 115, 114] (by decide) hrest
        exact hnot (by rw [← hc]; exact List.cons_prefix_cons.mpr ⟨rfl, h3⟩)
      · exact ih2 (fun h7 => hno (List.infix_cons h7)) hin

theorem patchUiFiles_fixed (uifiles : List String) (content : List UInt8)
    (hfix : PatchFile content "/usr" "././" = some content) :
    patchUiFiles uifiles content = some content := by
  induction uifiles with
  | nil => rfl
  | cons u rest ih => rw [patchUiFiles, hfix]; exact ih

/-- C15, counterexample.  For the content `/usrusr` the substitution gives `././usr`,
which holds `/usr` again; applied to that it gives `./.././`.  With one `.ui` file the
main executable ends as the first, with two as the second. -/
theorem usr_dots_not_idempotent :
    PatchFile (goBytes "/usrusr") "/usr" "././" = some (goBytes "././usr") ∧
    PatchFile (goBytes "././usr") "/usr" "././" = some (goBytes "./.././") ∧
    goBytes "././usr" ≠ goBytes "./.././" ∧
    patchUiFiles ["a.ui"] (goBytes "/usrusr") = some (goBytes "././usr") ∧
    patchUiFiles ["a.ui", "b.ui"] (goBytes "/usrusr") = some (goBytes "./.././") := by
  decide

/-- In the output of the `/usr` to `././` substitution, a run of bytes without `/` at
the start of the input is at the start of the output too, and `/usr` occurs when the
input holds `/usr` directly followed by `usr`. -/
theorem replace_usr_dots_leftover :
    ∀ (n : Nat) (s : List UInt8), s.length ≤ n →
      (∀ w : List UInt8, (∀ b ∈ w, b ≠ 47) → w <+: s →
        w <+: replaceLoop [47, 117, 115, 114] [46, 47, 46, 47] n s) ∧
      ([47, 117, 115, 114, 117, 115, 114] <:+: s →
        [47, 117, 115, 114] <:+: replaceLoop [47, 117, 115, 114] [46, 47, 46, 47] n s) := by
  refine replaceLoop_induction [47, 117, 115, 114] [46, 47, 46, 47] (by simp)
    (fun s out => (∀ w : List UInt8, (∀ b ∈ w, b ≠ 47) → w <+: s → w <+: out) ∧
      ([47, 117, 115, 114, 117, 115, 114] <:+: s → [47, 117, 115, 114] <:+: out))
    ?_ ?_ ?_
  · refine ⟨fun w _ hw => hw, ?_⟩
    intro hin
    have := List.eq_nil_of_infix_nil hin
    simp at this
  · rintro t out ⟨ih1, ih2⟩
    refine ⟨?_, ?_⟩
    · intro w hw hpre
      cases w with
      | nil => exact List.nil_prefix
      | cons b w =>
        have hb : b ≠ 47 := hw b (List.mem_cons_self _ _)
        have hpre1 : b :: w <+: 47 :: ([117, 115, 114] ++ t) := hpre
        exact absurd (List.cons_prefix_cons.mp hpre1).1 hb
    · intro hin
      have hshow : ∀ o : List UInt8, [47, 117, 115, 114] <:+: o →
          [47, 117, 115, 114] <:+: [46, 47, 46, 47] ++ o :=
        fun o ho => List.IsInfix.trans ho (List.suffix_append _ o).isInfix
      have hin0 : [47, 117, 115, 114, 117, 115, 114] <:+: 47 :: 117 :: 115 :: 114 :: t := hin
      rcases List.infix_cons_iff.mp hin0 with hpre | hin1
      · have h3 : ([117, 115, 114] : List UInt8) <+: t := by
          obtain ⟨r, hr⟩ := hpre
          refine ⟨r, ?_⟩
          simpa using hr
        obtain ⟨r, hr⟩ := ih1 [117, 115, 114] (by decide) h3
        refine ⟨[46, 47, 46], r, ?_⟩
        rw [← hr]; rfl
      · rcases List.infix_cons_iff.mp hin1 with hpre | hin2
        · exact absurd (List.cons_prefix_cons.mp hpre).1 (by decide)
        · rcases List.infix_cons_iff.mp hin2 with hpre | hin3
          · exact absurd (List.cons_prefix_cons.mp hpre).1 (by decide)
          · rcases List.infix_cons_iff.mp hin3 with hpre | hin4
            · exact absurd (List.cons_prefix_cons.mp hpre).1 (by decide)
            · exact hshow out (ih2 hin4)
  · rintro c cs out hnot ⟨ih1, ih2⟩
    refine ⟨?_, ?_⟩
    · intro w hw hpre
      cases w with
      | nil => exact List.nil_prefix
      | cons b w =>
        rw [List.cons_prefix_cons] at hpre ⊢
        exact ⟨hpre.1, ih1 w (fun x hx => hw x (List.mem_cons_of_mem _ hx)) hpre.2⟩
    · intro hin
      rcases List.infix_cons_iff.mp hin with hpre | hin1
      · exact absurd (List.IsPrefix.trans ⟨[117, 115, 114], rfl⟩ hpre) hnot
      · exact List.infix_cons (ih2 hin1)

/-- The `/usr` to `././` substitution changes every content in which `/usr` occurs. -/
theorem replace_usr_dots_changes :
    ∀ (n : Nat) (s : List UInt8), s.length ≤ n → [47, 117, 115, 114] <:+: s →
      replaceLoop [47, 117, 115, 114] [46, 47, 46, 47] n s ≠ s := by
  refine replaceLoop_induction [47, 117, 115, 114] [46, 47, 46, 47] (by simp)
    (fun s out => [47, 117, 115, 114] <:+: s → out ≠ s) ?_ ?_ ?_
  · intro hin
    have := List.eq_nil_of_infix_nil hin
    simp at this
  · intro t out _ _ heq
    have h0 : (46 : UInt8) = 47 := (List.cons.inj heq).1
    exact absurd h0 (by decide)
  · intro c cs out hnot ih hin heq
    rcases List.infix_cons_iff.mp hin with hpre | hin1
    · exact hnot hpre
    · exact ih hin1 (List.cons.inj heq).2

/-- C15, amended.  For every content of the primary executable, applying the `/usr` to
`././` substitution of `PatchFile` twice gives the same bytes as applying it once if
and only if `/usr` is nowhere in the content directly followed by `usr`; for such a
content the loop over the `.ui` files leaves the same bytes for one file as for
several. -/
theorem usr_dots_idempotent_iff (input : List UInt8) :
    ∃ once, PatchFile input "/usr" "././" = some once ∧
      (PatchFile once "/usr" "././" = some once ↔ ¬ goBytes "/usrusr" <:+: input) ∧
      (¬ goBytes "/usrusr" <:+: input →
        ∀ uifiles : List String, uifiles ≠ [] → patchUiFiles uifiles input = some once) := by
  rw [goBytes_usrusr]
  have hfix : ¬ [47, 117, 115, 114, 117, 115, 114] <:+: input →
      PatchFile (replaceLoop [47, 117, 115, 114] [46, 47, 46, 47] input.length input)
        "/usr" "././" =
      some (replaceLoop [47, 117, 115, 114] [46, 47, 46, 47] input.length input) := by
    intro hno
    rw [PatchFile_usr_dots,
      replaceLoop_of_not_infix [47, 117, 115, 114] [46, 47, 46, 47] (by simp) _ _
        (Nat.le_refl _) ((replace_usr_dots_clean input.length input (Nat.le_refl _)).2 hno)]
  refine ⟨_, PatchFile_usr_dots input, ⟨?_, hfix⟩, ?_⟩
  · intro htwice hin
    have hleft := (replace_usr_dots_leftover input.length input (Nat.le_refl _)).2 hin
    rw [PatchFile_usr_dots, Option.some.injEq] at htwice
    exact replace_usr_dots_changes _ _ (Nat.le_refl _) hleft htwice
  · intro hno uifiles hne
    obtain ⟨u, rest, rfl⟩ := List.exists_cons_of_ne_nil hne
    rw [patchUiFiles, PatchFile_usr_dots]
    exact patchUiFiles_fixed rest _ (hfix hno)

/-! ## Which entries of `libraryLocations` begin with `/` -/

theorem Clean_rooted {p : String} (hp : ∃ q, p.data = '/' :: q) :
    ∃ q, (Clean p).data = '/' :: q := by
  obtain ⟨q, hq⟩ := hp
  exact ⟨_, by rw [Clean, hq, cleanChars_rooted]⟩

theorem origin_data : ("$ORIGIN" : String).data = ['$', 'O', 'R', 'I', 'G', 'I', 'N'] := rfl

/-- Replacing `$ORIGIN` by a rooted directory in an entry that begins with `/` or with
`$ORIGIN` gives a rooted path. -/
theorem ReplaceAll_origin_rooted {r dir : String} (hdir : ∃ q, dir.data = '/' :: q)
    (hr : HasPrefix r "/" = true ∨ HasPrefix r "$ORIGIN" = true) :
    ∃ q, (ReplaceAll r "$ORIGIN" dir).data = '/' :: q := by
  obtain ⟨qd, hqd⟩ := hdir
  rw [ReplaceAll, if_neg (by rw [origin_data]; simp)]
  rcases hr with hr | hr
  · obtain ⟨q, hq⟩ := (hasPrefix_slash r).mp hr
    have hstep : replaceLoop ['$', 'O', 'R', 'I', 'G', 'I', 'N'] dir.data
        (q.length + 1) ('/' :: q) =
        '/' :: replaceLoop ['$', 'O', 'R', 'I', 'G', 'I', 'N'] dir.data q.length q := by
      rw [replaceLoop, if_neg (by simp [List.isPrefixOf])]
    rw [hq, origin_data]
    exact ⟨_, hstep⟩
  · obtain ⟨t, ht⟩ := List.isPrefixOf_iff_prefix.mp hr
    rw [origin_data] at ht
    have hstep : replaceLoop ['$', 'O', 'R', 'I', 'G', 'I', 'N'] ('/' :: qd)
        (t.length + 6 + 1) ('$' :: 'O' :: 'R' :: 'I' :: 'G' :: 'I' :: 'N' :: t) =
        '/' :: (qd ++ replaceLoop ['$', 'O', 'R', 'I', 'G', 'I', 'N'] ('/' :: qd)
          (t.length + 6) t) := by
      rw [replaceLoop, if_pos (by simp [List.isPrefixOf])]
      rfl
    rw [← ht, origin_data, hqd]
    exact ⟨_, hstep⟩

theorem mem_AppendIfMissing {l : List String} {x d : String}
    (hd : d ∈ AppendIfMissing l x) : d ∈ l ∨ d = x := by
  unfold AppendIfMissing at hd
  split at hd
  · exact Or.inl hd
  · simpa using hd

theorem addRpaths_rooted (path : String) (hpath : ∃ q, path.data = '/' :: q)
    (rpaths : List String)
    (hr : ∀ r ∈ rpaths, HasPrefix r "/" = true ∨ HasPrefix r "$ORIGIN" = true) :
    ∀ l : List String, (∀ d ∈ l, ∃ q, d.data = '/' :: q) →
      ∀ d ∈ addRpaths path rpaths l, ∃ q, d.data = '/' :: q := by
  unfold addRpaths
  induction rpaths with
  | nil => intro l hl; exact hl
  | cons r rest ih =>
    intro l hl
    rw [List.foldl_cons]
    apply ih (fun x hx => hr x (List.mem_cons_of_mem _ hx))
    dsimp only
    split
    · intro d hd
      rcases mem_AppendIfMissing hd with hd | hd
      · exact hl d hd
      · rw [hd]
        exact Clean_rooted (Clean_rooted
          (ReplaceAll_origin_rooted (Dir_rooted hpath) (hr r (List.mem_cons_self _ _))))
    · exact hl

theorem appendLib_rooted {h : Host} {s s1 : State} {path : String}
    (hs : appendLib h s path = some s1) (hpath : ∃ q, path.data = '/' :: q)
    (hr : ∀ rpaths, readRpaths h path = some rpaths →
      ∀ r ∈ rpaths, HasPrefix r "/" = true ∨ HasPrefix r "$ORIGIN" = true)
    (hl : ∀ d ∈ s.libraryLocations, ∃ q, d.data = '/' :: q) :
    ∀ d ∈ s1.libraryLocations, ∃ q, d.data = '/' :: q := by
  unfold appendLib at hs
  split at hs
  · exact absurd hs (by simp)
  · next rpaths hrp =>
    simp only [Option.some.injEq] at hs
    subst hs
    intro d hd
    rcases mem_AppendIfMissing hd with hd | hd
    · exact addRpaths_rooted path hpath rpaths (hr rpaths hrp) _ hl d hd
    · rw [hd]; exact Clean_rooted (Dir_rooted hpath)

theorem locs_rooted : ∀ d ∈ locs, HasPrefix d "/" = true := by decide

theorem findLibrary_rooted (h : Host) (s : State) (filename : String)
    (hld : ∀ c ∈ Split h.ldLibraryPath ':', c ≠ "" → HasPrefix c "/" = true)
    (hl : ∀ d ∈ s.libraryLocations, ∃ q, d.data = '/' :: q) :
    ∀ d ∈ (findLibrary h s filename).1.libraryLocations, ∃ q, d.data = '/' :: q := by
  intro d hd
  rcases (mem_seeded h.ldLibraryPath s.libraryLocations d).mp hd with hd | hd | hd
  · exact hl d hd
  · exact (hasPrefix_slash d).mp (locs_rooted d hd)
  · rw [ldLibraryPathComponents, List.mem_map] at hd
    obtain ⟨c, hc, rfl⟩ := hd
    rw [List.mem_filter] at hc
    exact Clean_rooted ((hasPrefix_slash c).mp (hld c hc.1 (by simpa using hc.2)))

theorem runCalls_rooted (h : Host)
    (hld : ∀ c ∈ Split h.ldLibraryPath ':', c ≠ "" → HasPrefix c "/" = true)
    (calls : List Call) :
    ∀ s s1 : State, (∀ d ∈ s.libraryLocations, ∃ q, d.data = '/' :: q) →
      (∀ path, Call.appendLib path ∈ calls → HasPrefix path "/" = true ∧
        ∀ rpaths, readRpaths h path = some rpaths →
          ∀ r ∈ rpaths, HasPrefix r "/" = true ∨ HasPrefix r "$ORIGIN" = true) →
      runCalls h s calls = some s1 →
      ∀ d ∈ s1.libraryLocations, ∃ q, d.data = '/' :: q := by
  induction calls with
  | nil =>
    intro s s1 hl _ hrun
    simp only [runCalls, Option.some.injEq] at hrun
    subst hrun
    exact hl
  | cons c rest ih =>
    intro s s1 hl hcalls hrun
    have hrest : ∀ path, Call.appendLib path ∈ rest → HasPrefix path "/" = true ∧
        ∀ rpaths, readRpaths h path = some rpaths →
          ∀ r ∈ rpaths, HasPrefix r "/" = true ∨ HasPrefix r "$ORIGIN" = true :=
      fun path hp => hcalls path (List.mem_cons_of_mem _ hp)
    cases c with
    | appendLib path =>
      rw [runCalls] at hrun
      split at hrun
      · exact absurd hrun (by simp)
      · next s2 hs2 =>
        have hp := hcalls path (List.mem_cons_self _ _)
        exact ih s2 s1
          (appendLib_rooted hs2 ((hasPrefix_slash path).mp hp.1) hp.2 hl) hrest hrun
    | findLibrary filename =>
      rw [runCalls] at hrun
      exact ih _ s1 (findLibrary_rooted h s filename hld hl) hrest hrun

/-- C12, counterexample.  On the host whose `LD_LIBRARY_PATH` is `lib` and whose object
`/app/tool` has the embedded search path `plugins`, `findLibrary` puts `lib` into
`libraryLocations` and `appendLib` puts `plugins` there; neither begins with `/`. -/
theorem libraryLocations_relative_entries :
    "lib" ∈ (findLibrary hostRelativeDirs ⟨[], []⟩ "libz.so").1.libraryLocations ∧
    HasPrefix "lib" "/" = false ∧
    runCalls hostRelativeDirs ⟨[], []⟩ [Call.appendLib "/app/tool"] =
      some ⟨["/app/tool"], ["plugins", "/app"]⟩ ∧
    HasPrefix "plugins" "/" = false := by
  decide

/-- C12, amended.  After any sequence of `appendLib` and `findLibrary` calls that starts
with only entries beginning with `/` in `libraryLocations`, every entry of
`libraryLocations` begins with `/`, provided that every non-empty component of
`LD_LIBRARY_PATH` begins with `/`, every ingested object is given by a path beginning
with `/`, and every entry of its embedded search path begins with `/` or with
`$ORIGIN`. -/
theorem libraryLocations_absolute (h : Host) (calls : List Call) (s s1 : State)
    (hs : ∀ d ∈ s.libraryLocations, HasPrefix d "/" = true)
    (hld : ∀ c ∈ Split h.ldLibraryPath ':', c ≠ "" → HasPrefix c "/" = true)
    (hcalls : ∀ path, Call.appendLib path ∈ calls → HasPrefix path "/" = true ∧
      ∀ rpaths, readRpaths h path = some rpaths →
        ∀ r ∈ rpaths, HasPrefix r "/" = true ∨ HasPrefix r "$ORIGIN" = true)
    (hrun : runCalls h s calls = some s1) :
    ∀ d ∈ s1.libraryLocations, HasPrefix d "/" = true := by
  intro d hd
  exact (hasPrefix_slash d).mpr
    (runCalls_rooted h hld calls s s1 (fun x hx => (hasPrefix_slash x).mp (hs x hx))
      hcalls hrun d hd)

/-- Witness for `libraryLocations_absolute`: on the host whose `LD_LIBRARY_PATH` is
`/opt/extra::/srv/lib`, ingesting `/app/bin/tool` with the embedded search path
`$ORIGIN/../lib:/opt/lib` and then resolving a name. -/
theorem libraryLocations_absolute_witness :
    runCalls hostOrigin ⟨[], []⟩ [Call.appendLib "/app/bin/tool", Call.findLibrary "libz.so"] =
      some ⟨["/app/bin/tool"],
        ["/app/lib", "/opt/lib", "/app/bin"] ++ locs ++ ["/opt/extra", "/srv/lib"]⟩ ∧
    ∀ d ∈ ["/app/lib", "/opt/lib", "/app/bin"] ++ locs ++ ["/opt/extra", "/srv/lib"],
      HasPrefix d "/" = true := by
  have hrun : runCalls hostOrigin ⟨[], []⟩
      [Call.appendLib "/app/bin/tool", Call.findLibrary "libz.so"] =
      some ⟨["/app/bin/tool"],
        ["/app/lib", "/opt/lib", "/app/bin"] ++ locs ++ ["/opt/extra", "/srv/lib"]⟩ := by
    decide
  refine ⟨hrun, ?_⟩
  refine libraryLocations_absolute hostOrigin
    [Call.appendLib "/app/bin/tool", Call.findLibrary "libz.so"] ⟨[], []⟩ _
    (by intro d hd; cases hd) (by decide) ?_ hrun
  intro path hmem
  have hpath : path = "/app/bin/tool" := by simpa using hmem
  subst hpath
  refine ⟨by decide, ?_⟩
  intro rpaths hrp
  have hread : readRpaths hostOrigin "/app/bin/tool" =
      some ["$ORIGIN/../lib", "/opt/lib"] := by decide
  rw [hread] at hrp
  simp only [Option.some.injEq] at hrp
  subst hrp
  decide

/-! ## Joining with a separator -/

theorem joinChars_cons (sep w : List Char) (ws : List (List Char)) :
    joinChars sep (w :: ws) = w ++ (ws.map (fun v => sep ++ v)).flatten := by
  induction ws generalizing w with
  | nil => simp [joinChars]
  | cons v vs ih => rw [joinChars, ih v]; simp

theorem intercalate_go_data (sep : String) (as : List String) :
    ∀ acc : String, (String.intercalate.go acc sep as).data =
      acc.data ++ (as.map (fun a => sep.data ++ a.data)).flatten := by
  induction as with
  | nil => intro acc; simp [String.intercalate.go]
  | cons a as ih =>
    intro acc
    rw [String.intercalate.go, ih]
    simp [String.data_append]

/-- The characters of the library function `String.intercalate` are those of `Join`. -/
theorem Join_eq_intercalate (elems : List String) (sep : String) :
    Join elems sep = sep.intercalate elems := by
  apply String.ext
  cases elems with
  | nil => rfl
  | cons a as =>
    show joinChars sep.data ((a :: as).map String.data) = (String.intercalate.go a sep as).data
    rw [intercalate_go_data, List.map_cons, joinChars_cons, List.map_map]
    rfl

theorem Split_intercalate (cs : List String) (hne : cs ≠ [])
    (hcs : ∀ c ∈ cs, ':' ∉ c.data) : Split (":".intercalate cs) ':' = cs := by
  rw [← Join_eq_intercalate, Split, Join]
  show (splitChars ':' (joinChars [':'] (cs.map String.data))).map String.mk = cs
  rw [splitChars_joinChars ':' _ (by simpa using hne)
    (by intro w hw; obtain ⟨c, hc, rfl⟩ := List.mem_map.mp hw; exact hcs c hc)]
  rw [List.map_map]
  exact List.map_id cs

/-- The components of an `LD_LIBRARY_PATH` written as `cs` joined with `:`. -/
theorem ldLibraryPathComponents_intercalate (cs : List String)
    (hcs : ∀ c ∈ cs, ':' ∉ c.data) :
    ldLibraryPathComponents (":".intercalate cs) = (cs.filter (fun c => c ≠ "")).map Clean := by
  by_cases hne : cs = []
  · subst hne; decide
  · rw [ldLibraryPathComponents, Split_intercalate cs hne hcs]

theorem joinChars_splitChars (sep : Char) (p : List Char) :
    joinChars [sep] (splitChars sep p) = p := by
  induction p with
  | nil => rfl
  | cons c cs ih =>
    by_cases hc : c = sep
    · rw [splitChars, if_pos hc]
      obtain ⟨w, ws, hsp⟩ := List.exists_cons_of_ne_nil (splitChars_ne_nil sep cs)
      rw [hsp] at ih ⊢
      rw [joinChars, ih, hc]
      rfl
    · rw [splitChars, if_neg hc]
      obtain ⟨w, ws, hsp⟩ := List.exists_cons_of_ne_nil (splitChars_ne_nil sep cs)
      rw [hsp] at ih ⊢
      show joinChars [sep] ((c :: w) :: ws) = c :: cs
      rw [← ih, joinChars_cons, joinChars_cons]
      rfl

/-- Every value of `LD_LIBRARY_PATH` is a list of strings without `:` joined with `:`. -/
theorem intercalate_covers (ldpstr : String) :
    ∃ cs : List String, (∀ c ∈ cs, ':' ∉ c.data) ∧ ldpstr = ":".intercalate cs := by
  refine ⟨Split ldpstr ':', ?_, ?_⟩
  · intro c hc
    obtain ⟨w, hw, rfl⟩ := List.mem_map.mp hc
    exact not_mem_of_mem_splitChars ':' ldpstr.data w hw
  · rw [← Join_eq_intercalate, Join, Split, List.map_map]
    apply String.ext
    show ldpstr.data = joinChars [':'] ((splitChars ':' ldpstr.data).map (fun w => w))
    rw [List.map_id', joinChars_splitChars]

/-! ## Seeding of `libraryLocations` -/

/-- C4 (seeding).  Let `LD_LIBRARY_PATH` be the strings `cs`, none holding a `:`, joined
with `:`.  When `libraryLocations` is empty before the call, then after `findLibrary`
returns, found or not, it is the eleven fixed directories in the order of the source
followed by `rest`, which holds exactly the cleaned forms of the non-empty strings of
`cs` that are not among the fixed directories, each once, ordered by first occurrence
in `cs`. -/
theorem findLibrary_seeding (h : Host) (allELFs : List String) (filename : String)
    (cs : List String) (hcs : ∀ c ∈ cs, ':' ∉ c.data)
    (hld : h.ldLibraryPath = ":".intercalate cs) :
    ∃ rest : List String,
      (findLibrary h ⟨allELFs, []⟩ filename).1.libraryLocations =
        ["/usr/lib64", "/lib64", "/usr/lib", "/lib", "/usr/lib/x86_64-linux-gnu/libfakeroot",
         "/usr/local/lib", "/usr/local/lib/x86_64-linux-gnu", "/lib/x86_64-linux-gnu",
         "/usr/lib/x86_64-linux-gnu", "/lib32", "/usr/lib32"] ++ rest ∧
      (∀ d, d ∈ rest ↔ (∃ c ∈ cs, c ≠ "" ∧ Clean c = d) ∧
        d ∉ ["/usr/lib64", "/lib64", "/usr/lib", "/lib",
          "/usr/lib/x86_64-linux-gnu/libfakeroot", "/usr/local/lib",
          "/usr/local/lib/x86_64-linux-gnu", "/lib/x86_64-linux-gnu",
          "/usr/lib/x86_64-linux-gnu", "/lib32", "/usr/lib32"]) ∧
      rest.Pairwise (fun x y =>
        ((cs.filter (fun c => c ≠ "")).map Clean).indexOf x <
          ((cs.filter (fun c => c ≠ "")).map Clean).indexOf y) := by
  have hseed : seedLocs [] = locs := by decide
  have hcomp := ldLibraryPathComponents_intercalate cs hcs
  rw [← hld] at hcomp
  obtain ⟨rest, h1, h2, h3⟩ :=
    foldl_AppendIfMissing (ldLibraryPathComponents h.ldLibraryPath) locs
  rw [hcomp] at h2 h3
  refine ⟨rest, ?_, ?_, h3⟩
  · simp only [findLibrary, hseed, seedLdLibraryPath_eq]
    exact h1
  · intro d
    rw [h2 d]
    have hmem : d ∈ (cs.filter (fun c => c ≠ "")).map Clean ↔
        ∃ c ∈ cs, c ≠ "" ∧ Clean c = d := by
      simp only [List.mem_map, List.mem_filter, decide_eq_true_eq]
      constructor
      · rintro ⟨c, ⟨hc, hne⟩, hd⟩; exact ⟨c, hc, hne, hd⟩
      · rintro ⟨c, hc, hne, hd⟩; exact ⟨c, ⟨hc, hne⟩, hd⟩
    rw [hmem]
    rfl

/-- Witness for `findLibrary_seeding`: `LD_LIBRARY_PATH` is
`/opt/extra/::/usr/lib:/srv//lib/../lib2:/opt/extra`; after the eleven fixed directories
come `/opt/extra` and `/srv/lib2`. -/
theorem findLibrary_seeding_witness :
    (findLibrary hostSeed ⟨[], []⟩ "libz.so").1.libraryLocations =
      ["/usr/lib64", "/lib64", "/usr/lib", "/lib", "/usr/lib/x86_64-linux-gnu/libfakeroot",
       "/usr/local/lib", "/usr/local/lib/x86_64-linux-gnu", "/lib/x86_64-linux-gnu",
       "/usr/lib/x86_64-linux-gnu", "/lib32", "/usr/lib32", "/opt/extra", "/srv/lib2"] ∧
    ∃ rest : List String,
      (findLibrary hostSeed ⟨[], []⟩ "libz.so").1.libraryLocations =
        ["/usr/lib64", "/lib64", "/usr/lib", "/lib", "/usr/lib/x86_64-linux-gnu/libfakeroot",
         "/usr/local/lib", "/usr/local/lib/x86_64-linux-gnu", "/lib/x86_64-linux-gnu",
         "/usr/lib/x86_64-linux-gnu", "/lib32", "/usr/lib32"] ++ rest ∧
      (∀ d, d ∈ rest ↔
        (∃ c ∈ ["/opt/extra/", "", "/usr/lib", "/srv//lib/../lib2", "/opt/extra"],
          c ≠ "" ∧ Clean c = d) ∧
        d ∉ ["/usr/lib64", "/lib64", "/usr/lib", "/lib",
          "/usr/lib/x86_64-linux-gnu/libfakeroot", "/usr/local/lib",
          "/usr/local/lib/x86_64-linux-gnu", "/lib/x86_64-linux-gnu",
          "/usr/lib/x86_64-linux-gnu", "/lib32", "/usr/lib32"]) ∧
      rest.Pairwise (fun x y =>
        ((["/opt/extra/", "", "/usr/lib", "/srv//lib/../lib2", "/opt/extra"].filter
            (fun c => c ≠ "")).map Clean).indexOf x <
          ((["/opt/extra/", "", "/usr/lib", "/srv//lib/../lib2", "/opt/extra"].filter
            (fun c => c ≠ "")).map Clean).indexOf y) :=
  ⟨by decide,
    findLibrary_seeding hostSeed [] "libz.so"
      ["/opt/extra/", "", "/usr/lib", "/srv//lib/../lib2", "/opt/extra"]
      (by decide) (by decide)⟩

/-! ## The relocation string -/

/-- C6 (shape of the relocation string).  For every AppDir, object path and list `M`, the
string `patchRpathsInElf` computes is a list of tokens with `:` between them, one token
per entry of `M` in the order of `M`; the token for an entry is the literal `$ORIGIN/`
followed by the cleaned relative path when `filepath.Rel` succeeds and by `.` when it
fails, and no token begins with `/`.  For the AppDir `/app`, the object
`/app/usr/bin/tool` and `M = [/app/usr/lib, /app/lib, usr/lib]` (no relative path exists
for the last entry) the string is `$ORIGIN/../lib:$ORIGIN/../../lib:$ORIGIN/.`; for an
empty `M` it is empty. -/
theorem newRpath_shape :
    (∀ (appdir : AppDir) (M : List String) (path : String),
      ∃ tokens : List String,
        newRpathStringForElf appdir M path = ":".intercalate tokens ∧
        tokens.length = M.length ∧
        ∀ (i : Nat) (m : String), M[i]? = some m →
          ∃ r, tokens[i]? = some ("$ORIGIN/" ++ r) ∧
            HasPrefix ("$ORIGIN/" ++ r) "/" = false ∧
            (∀ rel, Rel (Dir (pathInAppDir appdir path)) m = StrResult.ok rel →
              r = Clean rel) ∧
            (∀ e, Rel (Dir (pathInAppDir appdir path)) m = StrResult.err e → r = ".")) ∧
    newRpathStringForElf ⟨"/app"⟩ ["/app/usr/lib", "/app/lib", "usr/lib"] "/app/usr/bin/tool"
      = "$ORIGIN/../lib:$ORIGIN/../../lib:$ORIGIN/." ∧
    Rel (Dir (pathInAppDir ⟨"/app"⟩ "/app/usr/bin/tool")) "usr/lib"
      = StrResult.err "Rel: can't make usr/lib relative to /app/usr/bin" ∧
    newRpathStringForElf ⟨"/app"⟩ [] "/app/usr/bin/tool" = "" := by
  refine ⟨?_, by decide, by decide, by decide⟩
  intro appdir M path
  refine ⟨newRpathStrings appdir M path, Join_eq_intercalate _ _,
    by simp [newRpathStrings], ?_⟩
  intro i m hm
  refine ⟨Clean (match Rel (Dir (pathInAppDir appdir path)) m with
      | StrResult.ok r => r
      | StrResult.err _ => ""), ?_, ?_, ?_, ?_⟩
  · simp [newRpathStrings, List.getElem?_map, hm]
  · simp [HasPrefix, String.data_append, List.isPrefixOf]
  · intro rel hrel; rw [hrel]
  · intro e he; rw [he]; show Clean "" = "."; decide

end AppDirTool
